import Mathlib

/-!
Verification of the mongoz sharded routing proxy against its
natural-language specification.

Each namespace below is a shallow embedding of one component of the
source, followed by the theorems that settle the corresponding claims:

* `SelectLocal` — localThreshold backend selection (`Multiple::selectLocal`,
  src/shard.cpp).
* Further namespaces cover the config constructor, the router, the
  acknowledgement merger, the hashed-key digest, the session feed loop,
  the endpoint connection pools, the hedged read and datasource ids.

Machine integers are modelled as `Nat`/`Int` with explicit `% 2 ^ w`
where overflow matters.
-/

unseal List.merge List.mergeSort

namespace Mongoz

namespace SelectLocal

/-- `RAND_MAX + 1` as used in
`rand() * distance / ((unsigned long long) RAND_MAX + 1)`
(glibc `RAND_MAX` is `2 ^ 31 - 1`). -/
def randMax1 : Nat := 2 ^ 31

/-- A backend as seen by localThreshold selection: its roundtrip estimate
in microseconds, plus an address distinguishing it from the others. -/
structure Backend where
  rt : Nat
  addr : Nat
deriving DecidableEq

/-- `Multiple::calcByRoundtrip`: snapshot the backends' roundtrips and sort
ascending by roundtrip. -/
def calcByRoundtrip (backends : List Backend) : List Backend :=
  List.mergeSort backends (fun a b => a.rt ≤ b.rt)

/-- The scan `for (; it != candidates.end() && (*it)->roundtrip() < threshold; ++it)`:
how many leading candidates have roundtrip strictly below the threshold. -/
def keptLen (cands : List Backend) (thr : Nat) : Nat :=
  (cands.takeWhile (fun b => b.rt < thr)).length

/-- Size of the range the random index is drawn from: the scanned segment,
widened to the whole candidate list when that segment is empty
(`if (it == candidates.begin()) it = candidates.end();`). -/
def selectRange (cands : List Backend) (localThreshold : Nat) : Nat :=
  match cands with
  | [] => 0
  | c :: rest =>
    let p := keptLen (c :: rest) (c.rt + localThreshold)
    if p = 0 then (c :: rest).length else p

/-- `Multiple::selectLocal`: filter the roundtrip-sorted backends through
`pred`; if no candidate remains return null, otherwise return the candidate
at index `rand() * distance / (RAND_MAX + 1)` where `distance` is the
selection range. `r` stands for the value returned by `rand()`. -/
def selectLocal (pred : Backend → Bool) (backends : List Backend)
    (localThreshold r : Nat) : Option Backend :=
  match (calcByRoundtrip backends).filter pred with
  | [] => none
  | c :: rest =>
    some ((c :: rest).getD (r * selectRange (c :: rest) localThreshold / randMax1) c)

/-- Ceiling division, used to count which draws of `rand()` select a given
candidate index. -/
def cdiv (a n : Nat) : Nat := (a + n - 1) / n

end SelectLocal

namespace ConnPool

/-- A pooled connection: which endpoint slot it belongs to is implicit (the
pools are per endpoint); we only track an identifying tag and whether it is
primary-capable (`Connection::impl_->isPrimary`). -/
structure Conn where
  tag : Nat
  isPrimary : Bool
deriving DecidableEq

/-- The mutable pool state of one `Endpoint`: the primary-capable pool
(`primaries_`) and the any-capable pool (`conns_`). -/
structure PoolState where
  primaries : List Conn
  conns : List Conn
deriving DecidableEq

/-- The empty pools an endpoint starts with. -/
def initState : PoolState := ⟨[], []⟩

/-- `Endpoint::pop` of one pool: take the most recently stashed connection if
any. -/
def popPool (v : List Conn) : Option Conn × List Conn :=
  match v with
  | [] => (none, [])
  | c :: rest => (some c, rest)

/-- `Endpoint::release`: push the connection back into the pool selected by
its `isPrimary` flag iff that pool currently holds fewer than `connPoolSize`
connections; otherwise the connection is discarded (closed). -/
def release (connPoolSize : Nat) (s : PoolState) (c : Conn) : PoolState :=
  if c.isPrimary then
    if s.primaries.length < connPoolSize then ⟨c :: s.primaries, s.conns⟩ else s
  else
    if s.conns.length < connPoolSize then ⟨s.primaries, c :: s.conns⟩ else s

/-- The operations a caller can perform on the two pools:
`getPrimary`/`getAny` (which `pop` a pooled connection or create a fresh one
outside the pool), `flush` (empty both pools) and `release`. -/
inductive PoolOp where
  | getPrimary
  | getAny
  | flush
  | release (c : Conn)
deriving DecidableEq

/-- One step of the pool state machine. The connection handed out by
`getPrimary`/`getAny` leaves the pool (or is created fresh), so only the
pop matters for the pool state. -/
def stepPool (connPoolSize : Nat) (s : PoolState) (op : PoolOp) : PoolState :=
  match op with
  | PoolOp.getPrimary => ⟨(popPool s.primaries).2, s.conns⟩
  | PoolOp.getAny => ⟨s.primaries, (popPool s.conns).2⟩
  | PoolOp.flush => ⟨[], []⟩
  | PoolOp.release c => release connPoolSize s c

/-- Run a sequence of pool operations from a state. -/
def runPool (connPoolSize : Nat) (s : PoolState) (ops : List PoolOp) : PoolState :=
  ops.foldl (stepPool connPoolSize) s

/-- Both pools are within the `connPoolSize` cap. -/
def Bounded (connPoolSize : Nat) (s : PoolState) : Prop :=
  s.primaries.length ≤ connPoolSize ∧ s.conns.length ≤ connPoolSize

end ConnPool

namespace DataSourceId

/-- `2 ^ 64`, the modulus of the `uint64_t` id counter. -/
def u64 : Nat := 2 ^ 64

/-- `DataSource::generateID`: the process-wide atomic counter starts at 0 and
every datasource construction pre-increments it, so the i-th datasource
created in the process (counting from 0) receives id `(i + 1) mod 2 ^ 64`. -/
def generateID (i : Nat) : Nat := (i + 1) % u64

end DataSourceId

namespace AckMerge

/-- The value of an `err` field: BSON null or an error message. -/
inductive ErrVal where
  | null
  | msg (s : String)
deriving DecidableEq

/-- The `n` field of an acknowledgement: its (size_t) value together with the
width it is stored at — `true` for a 64-bit integer, `false` for 32-bit. -/
structure NField where
  wide : Bool
  val : Nat
deriving DecidableEq

/-- An acknowledgement document, restricted to the fields `defaultAckMerger`
inspects (other fields are dropped by the merger). `none` denotes an absent
field. `waited`/`wtime` are read as `int32_t`; `n` is read as `size_t`. -/
structure Ack where
  ok : Option Int
  err : Option ErrVal
  code : Option Int
  n : Option NField
  updatedExisting : Option Bool
  upserted : Option Int
  wtimeout : Option Bool
  waited : Option Int
  wtime : Option Int
deriving DecidableEq

/-- The empty document returned for an empty input list. -/
def emptyAck : Ack := ⟨none, none, none, none, none, none, none, none, none⟩

/-- `2 ^ 64`: `size_t` arithmetic on the running sum of `n` wraps here. -/
def u64 : Nat := 2 ^ 64

/-- `std::numeric_limits<int32_t>::max()`. -/
def int32max : Nat := 2 ^ 31 - 1

/-- The local accumulators of the merging loop in `defaultAckMerger`. -/
structure MergeAcc where
  err : Option ErrVal
  code : Option Int
  n : Nat
  hasUpdatedExisting : Bool
  updatedExisting : Bool
  upserted : Option Int
  wtimeout : Bool
  waited : Int
  wtime : Int

/-- Initial accumulator values. -/
def acc0 : MergeAcc := ⟨none, none, 0, false, false, none, false, 0, 0⟩

/-- Whether an accumulated `err` is present and non-null
(`err.exists() && !err.is<bson::Null>()`). -/
def nonNull : Option ErrVal → Bool
  | some (ErrVal.msg _) => true
  | _ => false

/-- `if (!strcmp(elt.name(), "err") && (!err.exists() || err.is<bson::Null>())) err = elt;` -/
def stepErr (acc : Option ErrVal) (e : Option ErrVal) : Option ErrVal :=
  match e with
  | none => acc
  | some v => if nonNull acc then acc else some v

/-- Keep the first present value (used for `code` and `upserted`). -/
def firstSome {α : Type} (a b : Option α) : Option α :=
  match a with
  | some x => some x
  | none => b

/-- One iteration of the merging loop over one acknowledgement. -/
def mergeStep (acc : MergeAcc) (ret : Ack) : MergeAcc where
  err := stepErr acc.err ret.err
  code := firstSome acc.code ret.code
  n := match ret.n with
    | some f => (acc.n + f.val) % u64
    | none => acc.n
  hasUpdatedExisting := acc.hasUpdatedExisting || ret.updatedExisting.isSome
  updatedExisting := acc.updatedExisting || ret.updatedExisting.getD false
  upserted := firstSome acc.upserted ret.upserted
  wtimeout := acc.wtimeout || ret.wtimeout.getD false
  waited := match ret.waited with
    | some v => max acc.waited v
    | none => acc.waited
  wtime := match ret.wtime with
    | some v => max acc.wtime v
    | none => acc.wtime

/-- `defaultAckMerger` (src write.cpp): empty input yields the empty document,
a single acknowledgement is returned unchanged, and two or more are combined
by the merging loop, building the output document field by field exactly as
the `bson::ObjectBuilder` block does. -/
def defaultAckMerger (rets : List Ack) : Ack :=
  match rets with
  | [] => emptyAck
  | [a] => a
  | _ =>
    let acc := rets.foldl mergeStep acc0
    { ok := some (if nonNull acc.err then 0 else 1)
      err := acc.err
      code := acc.code
      n := some ⟨decide (int32max < acc.n), acc.n⟩
      updatedExisting := if acc.hasUpdatedExisting then some acc.updatedExisting else none
      upserted := acc.upserted
      wtimeout := if acc.wtimeout then some true else none
      waited := if acc.waited = 0 then none else some acc.waited
      wtime := if acc.wtime = 0 then none else some acc.wtime }

/-- The first non-null `err` of an acknowledgement, if any. -/
def pickNonNull (r : Ack) : Option ErrVal :=
  match r.err with
  | some (ErrVal.msg m) => some (ErrVal.msg m)
  | _ => none

/-- The `size_t` value the merging loop reads off an acknowledgement for `n`. -/
def nVal (r : Ack) : Nat :=
  match r.n with
  | some f => f.val
  | none => 0

/-- The synthetic null acknowledgement `{ok: 1, err: null, n: 0}` (the
document `getLastError` reports when no write happened, and the ack of a
`NullWrite`). -/
def nullAck : Ack := ⟨some 1, some ErrVal.null, none, some ⟨false, 0⟩, none, none, none, none, none⟩

/-- Two optional fields agree whenever both are present. -/
def agreeOptB {α : Type} [DecidableEq α] (x y : Option α) : Bool :=
  match x, y with
  | some u, some v => decide (u = v)
  | _, _ => true

/-- `n` fields agree numerically (the 32/64-bit storage width is ignored)
whenever both are present. -/
def agreeN (x y : Option NField) : Bool :=
  match x, y with
  | some u, some v => decide (u.val = v.val)
  | _, _ => true

/-- Documents `d` and `e` agree up to field presence on every merger-visible
field except `ok`. -/
def ackAgreeExceptOk (d e : Ack) : Bool :=
  agreeOptB d.err e.err && agreeOptB d.code e.code && agreeN d.n e.n &&
  agreeOptB d.updatedExisting e.updatedExisting && agreeOptB d.upserted e.upserted &&
  agreeOptB d.wtimeout e.wtimeout && agreeOptB d.waited e.waited &&
  agreeOptB d.wtime e.wtime

/-- Documents `d` and `e` agree up to field presence (`ok` included). -/
def ackAgree (d e : Ack) : Bool :=
  agreeOptB d.ok e.ok && ackAgreeExceptOk d e

end AckMerge

namespace HashDigest

/-- `INT64_MIN`. -/
def int64min : Int := -(2 ^ 63)

/-- `INT64_MAX`. -/
def int64max : Int := 2 ^ 63 - 1

/-- The exact mathematical value of a finite `double` (every finite double is
a rational), or NaN. Infinities do not reach the routing hash and are
omitted. -/
inductive DVal where
  | nan
  | fin (q : ℚ)

/-- A numeric BSON element as classified by `hash()` in src/config.cpp:
either `elt.is<double>()` or the `elt.canBe<int64_t>()` fallback (int32 and
int64 values, whose stored 64-bit value is `n`). -/
inductive NumVal where
  | vdouble (d : DVal)
  | vint (n : Int)

/-- `static_cast<int64_t>` truncation toward zero of an exact double value. -/
def truncQ (q : ℚ) : Int := if 0 ≤ q then ⌊q⌋ else ⌈q⌉

/-- The int64 the double branch of `hash()` feeds to MD5:
NaN becomes 0; `v < (double)INT64_MIN` (exactly `-2^63`) saturates to
`INT64_MIN`; `v > (double)INT64_MAX` (which rounds up to exactly `2^63`)
saturates to `INT64_MAX`; otherwise the raw cast truncates — undefined
(modelled as `none`) when the truncated value leaves int64 range, which
happens exactly for the double `2^63`. -/
def doubleToI64 : DVal → Option Int
  | DVal.nan => some 0
  | DVal.fin q =>
    if q < -((2 : ℚ) ^ 63) then some int64min
    else if ((2 : ℚ) ^ 63) < q then some int64max
    else
      if int64min ≤ truncQ q ∧ truncQ q ≤ int64max then some (truncQ q) else none

/-- The sequence of words `hash(const bson::Element&)` feeds to the MD5 state
for a top-level numeric element: the int seed 0, the type tag — 10 for every
value with `canBe<double>()`, so for doubles and integers alike — and the
eight bytes of the int64 both numeric branches reduce the value to. Equal
inputs give equal MD5 digests. `none` marks the undefined cast. -/
def digestInput : NumVal → Option (List Int)
  | NumVal.vdouble d => (doubleToI64 d).map (fun i => [0, 10, i])
  | NumVal.vint n => some [0, 10, n]

end HashDigest

namespace ConfigEpochs

/-- One chunk row as the `Config` constructor sees it after linking: its
namespace string, the shard it lives on, and its version `(epoch, stamp)`
(`lastmodEpoch`, `lastmod`). Epochs are opaque 12-byte ids, modelled as
`Nat`; stamps are 64-bit timestamps, modelled as `Nat`. -/
structure Chunk where
  ns : String
  shard : String
  epoch : Nat
  stamp : Nat
deriving DecidableEq

/-- The `std::map` key `(ch.ns().ns(), ch.shard().get())`. -/
def key (c : Chunk) : String × String := (c.ns, c.shard)

/-- The `versions` map, keyed by (namespace, shard) pair. -/
def VMap : Type := String × String → Option (Nat × Nat)

/-- One iteration of the epoch-validation loop of `Config::Config`:
insert the first version seen for a pair; reject a chunk whose epoch differs
from the recorded one; adopt a strictly higher stamp within the same epoch. -/
def step (m : VMap) (c : Chunk) : Except String VMap :=
  match m (key c) with
  | none =>
    Except.ok (fun k => if k = key c then some (c.epoch, c.stamp) else m k)
  | some (e, s) =>
    if e ≠ c.epoch then
      Except.error
        ("ShardConfigBroken: chunks epochs differ for collection " ++ c.ns
          ++ " and shard " ++ c.shard)
    else if s < c.stamp then
      Except.ok (fun k => if k = key c then some (e, c.stamp) else m k)
    else
      Except.ok m

/-- The whole validation loop over all chunks. -/
def buildVersions (chunks : List Chunk) : Except String VMap :=
  chunks.foldlM step (fun _ => none)

/-- `Config::Config`: run the validation loop, then rewrite every chunk with
its group's recorded version (`ch.setVersion(versions.find(...)->second)`;
the lookup always succeeds, so the fallthrough keeping `c` is dead). -/
def configRewrite (chunks : List Chunk) : Except String (List Chunk) :=
  (buildVersions chunks).map (fun m =>
    chunks.map (fun c =>
      match m (key c) with
      | some (e, s) => ⟨c.ns, c.shard, e, s⟩
      | none => c))

/-- All chunks of one (namespace, shard) pair share one epoch. -/
def groupUniform (chunks : List Chunk) : Prop :=
  ∀ c1 ∈ chunks, ∀ c2 ∈ chunks, key c1 = key c2 → c1.epoch = c2.epoch

/-- The maximum stamp over a pair's group (0 when the group is empty). -/
def groupStampMax (chunks : List Chunk) (k : String × String) : Nat :=
  ((chunks.filter (fun c => key c = k)).map (fun c => c.stamp)).foldl max 0

/-- What the validation loop records for a pair: the epoch of the group's
first chunk and the running maximum of stamps. -/
def groupInfo (chunks : List Chunk) (k : String × String) : Option (Nat × Nat) :=
  match chunks.filter (fun c => key c = k) with
  | [] => none
  | c0 :: _ => some (c0.epoch, groupStampMax chunks k)

end ConfigEpochs

namespace Feed

/-- The wire flag `messages::Reply::QUERY_FAILURE = 0x02`. -/
def qfFlag : Nat := 2

/-- The 16 MiB reply size cap of `Session::feed`. -/
def maxSize : Nat := 16 * 1024 * 1024

/-- `sizeof(ReplyHeader)`: the reply starts out with the packed header. -/
def headerSize : Nat := 36

/-- Raw size of the synthesised `{$err: msg}` document
(4-byte length + type byte + "$err\0" + 4-byte string length + msg + two
terminators). -/
def errDocSize (m : String) : Nat := 16 + m.length

/-- How a datasource's document stream ends: the remote cursor is exhausted,
or the fetch past the cached documents (the `requestMore` inside `advance`)
throws the given error. -/
inductive Tail where
  | done
  | fail (msg : String)
deriving DecidableEq

/-- A datasource as `Session::feed` drives it: a backend-style stream of
documents (modelled by their raw sizes) whose end behaves per `Tail`, or a
`FixedDataSource::queryError` document (reply flag `QUERY_FAILURE`) with its
consumed flag. Both carry the cursor id (`DataSource::id`, possibly
reassigned via `setId`). -/
inductive DS where
  | stream (docs : List Nat) (tail : Tail) (dsid : Nat)
  | fixedErr (msg : String) (consumed : Bool) (dsid : Nat)
deriving DecidableEq

namespace DS

/-- `DataSource::atEnd`. -/
def atEnd : DS → Bool
  | stream docs _ _ => docs.isEmpty
  | fixedErr _ consumed _ => consumed

/-- `DataSource::id`. -/
def dsidOf : DS → Nat
  | stream _ _ i => i
  | fixedErr _ _ i => i

/-- `DataSource::flags` (the reply flags the source contributes): 0 for a
backend stream, `QUERY_FAILURE` for a synthesised error document. -/
def dsflags : DS → Nat
  | stream _ _ _ => 0
  | fixedErr _ _ _ => qfFlag

/-- `get().rawSize()`: size of the next document (0 in the unreachable
at-end states). -/
def getSize : DS → Nat
  | stream (d :: _) _ _ => d
  | stream [] _ _ => 0
  | fixedErr m false _ => errDocSize m
  | fixedErr _ true _ => 0

/-- One `get(); advance()` pair. When the advance past the last cached
document has to fetch from the backend and that fetch throws, the document
just read is discarded and the exception propagates (`Except.error`). -/
def fetchStep : DS → Except String (Nat × DS)
  | stream (d :: rest) t i =>
    match rest, t with
    | [], Tail.fail m => Except.error m
    | _, _ => Except.ok (d, stream rest t i)
  | stream [] t i => Except.ok (0, stream [] t i)
  | fixedErr m false i => Except.ok (errDocSize m, fixedErr m true i)
  | fixedErr m true i => Except.ok (0, fixedErr m true i)

/-- Termination measure for the feed loop. -/
def meas : DS → Nat
  | stream docs Tail.done _ => docs.length
  | stream docs (Tail.fail _) _ => docs.length + 2
  | fixedErr _ false _ => 1
  | fixedErr _ true _ => 0

end DS

/-- The batch loop of `Session::feed`, with the C++ loop condition order:
at-end, reply-size cap (which peeks at the next document), then the count.
On a fetch exception it synthesises a `{$err}` Fixed datasource carrying the
same id; with documents already in the batch it stops right there, otherwise
it ors the error source's `QUERY_FAILURE` flag into the reply and continues
(the next iterations then emit the error document). Returns the emitted
document sizes, the reply flags, the datasource in hand afterwards and the
final `retcnt`. The `fuel` argument only bounds the iteration count so the
recursion is structural; `DS.meas` fuel is always enough, so the zero-fuel
fallback is never reached. -/
def feedLoopF (fuel : Nat) (ds : DS) (replySize : Nat) (cnt : Option Nat)
    (retcnt : Nat) (flags : Nat) (acc : List Nat) : List Nat × Nat × DS × Nat :=
  match fuel with
  | 0 => (acc, flags, ds, retcnt)
  | fuel + 1 =>
    if ds.atEnd then (acc, flags, ds, retcnt)
    else if ¬ (replySize + ds.getSize < maxSize) then (acc, flags, ds, retcnt)
    else if cnt = some 0 then (acc, flags, ds, retcnt)
    else
      match ds.fetchStep with
      | Except.error m =>
        if retcnt ≠ 0 then (acc, flags, DS.fixedErr m false ds.dsidOf, retcnt)
        else
          feedLoopF fuel (DS.fixedErr m false ds.dsidOf) replySize cnt retcnt
            (flags ||| qfFlag) acc
      | Except.ok (d, ds2) =>
        feedLoopF fuel ds2 (replySize + d)
          (cnt.map (fun k => k - 1)) (retcnt + 1) flags (acc ++ [d])

/-- The batch loop, run with sufficient fuel. -/
def feedLoop (ds : DS) (replySize : Nat) (cnt : Option Nat) (retcnt : Nat)
    (flags : Nat) (acc : List Nat) : List Nat × Nat × DS × Nat :=
  feedLoopF (DS.meas ds) ds replySize cnt retcnt flags acc

/-- The result of one `Session::feed` call. -/
structure FeedOut where
  sentDocs : List Nat
  flags : Nat
  cursorId : Nat
  finalDS : DS
  closed : Bool
deriving DecidableEq

/-- `Session::feed` for a present datasource: initialise the reply flags from
the source, run the batch loop, then either record the cursor id (when the
request does not auto-close and the source is not exhausted) or close the
source. -/
def feed (ds : DS) (count : Int) : FeedOut :=
  let autoClose : Bool := count = 1 || count < 0
  let cnt0 : Nat := count.natAbs
  let cnt : Option Nat := if cnt0 = 0 then none else some cnt0
  let res := feedLoop ds headerSize cnt 0 ds.dsflags []
  match res with
  | (docs, flags, finalDS, _) =>
    if ¬ autoClose ∧ finalDS.atEnd = false then
      ⟨docs, flags, finalDS.dsidOf, finalDS, false⟩
    else
      ⟨docs, flags, 0, finalDS, true⟩

end Feed

namespace Talk

/-- Outcome of one fetch task: it succeeds after the given duration from its
spawn, or it never completes. (Failure outcomes take `talk`'s error-handling
paths, which the hedging claim does not touch.) -/
inductive TaskRun where
  | succeedsAt (t : Nat)
  | hangs
deriving DecidableEq

/-- Which reply `BackendDatasource::talk` installs. -/
inductive TalkRes where
  | t1Batch
  | t2Batch
  | timeoutErr
deriving DecidableEq

/-- Inputs of one `talk` round. Times are measured from the start of the
call (`io::timeout` values are absolute deadlines): `retransmit` and
`timeout` come from the read preference or the global options, `none`
standing for an infinite retransmit. `t1` describes the first fetch task,
spawned at time 0. `hasSecond` is whether
`shard_->readOp(msg_.flags, readPref, b1)` — which excludes T1's backend —
yields a connection, and `t2` describes the retransmit task from the moment
it is spawned. -/
structure TalkIn where
  retransmit : Option Nat
  timeout : Nat
  t1 : TaskRun
  hasSecond : Bool
  t2 : TaskRun
deriving DecidableEq

/-- What a `talk` round did. Cancellation is what the `io::task` destructors
do on return: a task still incomplete when `talk` returns is cancelled. -/
structure TalkOut where
  result : TalkRes
  t2spawned : Bool
  t1cancelled : Bool
  t2cancelled : Bool
deriving DecidableEq

/-- `std::min(retransmit, timeout)`: the deadline of the first
`pool.wait`. -/
def phase1Deadline (inp : TalkIn) : Nat :=
  match inp.retransmit with
  | none => inp.timeout
  | some rt => min rt inp.timeout

/-- Absolute completion time of a run spawned at time `s`. -/
def absTime (s : Nat) : TaskRun → Option Nat
  | TaskRun.succeedsAt t => some (s + t)
  | TaskRun.hangs => none

/-- The retransmit phase of `talk`: if `retransmit` is finite and the shard
offers a second backend, T2 is spawned (at the phase-1 deadline, when the
first wait returned) and `pool.wait(timeout)` hands back whichever task
succeeds first within the deadline — on a tie the pool scans `[t1, t2]` in
order, so T1 wins.  A task still running when `talk` returns is cancelled by
its destructor; on total timeout `talk` raises and both unfinished tasks are
cancelled. Without a second backend (or with infinite retransmit), `talk`
just keeps waiting for T1 until `timeout`. -/
def phase2 (inp : TalkIn) (t1abs : Option Nat) : TalkOut :=
  let s := phase1Deadline inp
  if inp.retransmit.isSome ∧ inp.hasSecond then
    match t1abs, absTime s inp.t2 with
    | some v1, some v2 =>
      if v1 ≤ inp.timeout ∧ v1 ≤ v2 then
        ⟨TalkRes.t1Batch, true, false, decide (v1 < v2)⟩
      else if v2 ≤ inp.timeout then
        ⟨TalkRes.t2Batch, true, decide (v2 < v1), false⟩
      else ⟨TalkRes.timeoutErr, true, true, true⟩
    | some v1, none =>
      if v1 ≤ inp.timeout then ⟨TalkRes.t1Batch, true, false, true⟩
      else ⟨TalkRes.timeoutErr, true, true, true⟩
    | none, some v2 =>
      if v2 ≤ inp.timeout then ⟨TalkRes.t2Batch, true, true, false⟩
      else ⟨TalkRes.timeoutErr, true, true, true⟩
    | none, none => ⟨TalkRes.timeoutErr, true, true, true⟩
  else
    match t1abs with
    | some v1 =>
      if v1 ≤ inp.timeout then ⟨TalkRes.t1Batch, false, false, false⟩
      else ⟨TalkRes.timeoutErr, false, true, false⟩
    | none => ⟨TalkRes.timeoutErr, false, true, false⟩

/-- `BackendDatasource::talk`: spawn T1, wait up to
`min(retransmit, timeout)`; a T1 success within that window is installed and
returned with no retransmission; otherwise enter the retransmit phase. -/
def talkModel (inp : TalkIn) : TalkOut :=
  match inp.t1 with
  | TaskRun.succeedsAt v =>
    if v ≤ phase1Deadline inp then ⟨TalkRes.t1Batch, false, false, false⟩
    else phase2 inp (some v)
  | TaskRun.hangs => phase2 inp none

end Talk

namespace Router

/-- A value of the sharding-key comparison order: `hashed` marks the single-field
`{field: "hashed"}` sharding key (src/src/config.cpp, `Config::find`, the
`hashedField` computation); every other key value shape is `plain`. -/
inductive SKVal where
  | hashed
  | plain
deriving DecidableEq

/-- `Config::Chunk` (src/unnamed/part_003 lines 55-70): namespace string,
lower/upper bound key (`none` models the empty bson object that `$minkey` and
`$maxkey` are rewritten to in the `Chunk` constructor, config.cpp lines 136-150),
owning shard id and version (epoch, stamp). Key values are drawn from an
arbitrary linearly ordered type `V` standing for canonically comparable bson
values. -/
structure Chunk (V : Type) where
  ns : String
  lower : Option (List V)
  upper : Option (List V)
  shard : String
  epoch : Nat
  stamp : Nat
deriving DecidableEq

/-- `Config::Collection`: its namespace string and the sharding key document as
an ordered list of (field name, key value shape). -/
structure Coll where
  ns : String
  keyFields : List (String × SKVal)
deriving DecidableEq

/-- `Config::Database`: name and primary shard id. -/
structure Database where
  name : String
  primary : String
deriving DecidableEq

/-- A namespace, `db.coll`. -/
structure NS where
  db : String
  coll : String
deriving DecidableEq

/-- `Namespace::ns()`: the joined string. -/
def NS.ns (n : NS) : String := n.db ++ "." ++ n.coll

/-- A topology snapshot: the chunk list (`chunks_`, a `SortedVector` keyed by
`(ns.ns(), lowerBound)`, config.cpp line 331 — iteration order is sorted, which
the theorems below take as the `SortedChunks` hypothesis), the collections and
the databases. -/
structure Topo (V : Type) where
  chunks : List (Chunk V)
  colls : List Coll
  dbs : List Database

/-- What a criteria document says about one sharding-key field: a plain value
(`headb[..] = el` / `tailb[..] = el` branch), a `$in` list, or any other
operator document (the `return shards(ns)` branch). -/
inductive Crit (V : Type) where
  | val (v : V)
  | inList (vs : List V)
  | otherOp
deriving DecidableEq

/-- Lexicographic comparison of key vectors (bson object `<` over the values in
field order; a strict prefix compares less). -/
def listLtB {V : Type} [LinearOrder V] : List V → List V → Bool
  | _, [] => false
  | [], _ :: _ => true
  | a :: as, b :: bs => if a < b then true else if b < a then false else listLtB as bs

/-- Lexicographic comparison of character lists, modelling `std::string`
`operator<`. -/
def clistLtB : List Char → List Char → Bool
  | _, [] => false
  | [], _ :: _ => true
  | a :: as, b :: bs => if a < b then true else if b < a then false else clistLtB as bs

/-- `std::string` comparison on the underlying character sequences. -/
def strLtB (a b : String) : Bool := clistLtB a.data b.data

/-- Comparison of optional key vectors: the empty object (`none`, the rewritten
`$minkey`) is strictly below every nonempty key. -/
def oltB {V : Type} [LinearOrder V] : Option (List V) → Option (List V) → Bool
  | _, none => false
  | none, some _ => true
  | some a, some b => listLtB a b

/-- The `std::pair<std::string, bson::Object>` comparison used by the chunks
`SortedVector` (`Cmp` with extractor `(c.ns().ns(), c.lowerBound())`,
sorted_vector.h lines 43-58): first component first. -/
def ckLtB {V : Type} [LinearOrder V] (a b : String × Option (List V)) : Bool :=
  if strLtB a.1 b.1 then true else if strLtB b.1 a.1 then false else oltB a.2 b.2

/-- The sort key `std::make_pair(c.ns().ns(), c.lowerBound())` of a chunk. -/
def sortKey {V : Type} (c : Chunk V) : String × Option (List V) := (c.ns, c.lower)

/-- `Config::Chunk::contains` (part_003 line 64):
`(min_.empty() || key >= min_) && (max_.empty() || key < max_)`. -/
def containsB {V : Type} [LinearOrder V] (c : Chunk V) (k : List V) : Bool :=
  (match c.lower with
   | none => true
   | some lo => ! listLtB k lo) &&
  (match c.upper with
   | none => true
   | some hi => listLtB k hi)

/-- The predicate whose `takeWhile` prefix is what `chunks_.upper_bound(key)`
skips over on the sorted chunk list: every chunk whose sort key is not greater
than the probe `(ns, key)`. -/
def ubKeep {V : Type} [LinearOrder V] (nsStr : String) (k : List V) (c : Chunk V) : Bool :=
  ! ckLtB (nsStr, some k) (sortKey c)

/-- The `doFind` lambda of `Config::find` (config.cpp lines 225-234):
`i = chunks_.upper_bound(make_pair(ns.ns(), k)); ASSERT(i != begin()); --i;
ASSERT(i->contains(k)); return {i->shard(), i->version()}` — the element before
the upper bound is the last element of the kept prefix; a failed `ASSERT` is
modelled as `none`. -/
def doFind {V : Type} [LinearOrder V] (chunks : List (Chunk V)) (nsStr : String) (k : List V) :
    Option (String × Nat × Nat) :=
  match (chunks.takeWhile (ubKeep nsStr k)).getLast? with
  | none => none
  | some c => if containsB c k then some (c.shard, c.epoch, c.stamp) else none

/-- `Config::collection(ns)` = `collections_.findPtr(ns.ns())` (part_003
line 127): lookup by exact namespace string. -/
def collection {V : Type} (t : Topo V) (nsStr : String) : Option Coll :=
  t.colls.find? (fun c => c.ns = nsStr)

/-- `Config::database(name)` = `databases_.findPtr(name)` (part_003 line 126). -/
def database {V : Type} (t : Topo V) (name : String) : Option Database :=
  t.dbs.find? (fun d => d.name = name)

/-- Insertion into the shard-keyed map/set used by both `Config::shards` and the
vector branch of `Config::find`: the first (shard, version) entry per shard id
is kept, a later entry for the same shard is dropped. (The insertion-order list
here has the same element set as the pointer-ordered `std::map`/`std::set` of
the source.) -/
def vsInsert (acc : List (String × Nat × Nat)) (x : String × Nat × Nat) :
    List (String × Nat × Nat) :=
  if acc.any (fun y => y.1 = x.1) then acc else acc ++ [x]

/-- `Config::shards(ns)` (config.cpp lines 252-280): the `config` database is
answered by the config shard (modelled by shard id `"config"` with the default
version) before anything else is consulted; a sharded collection contributes one
entry per shard owning one of its chunks (the `assert(prev->second ==
chunk.version())` of the NDEBUG build is not modelled); otherwise the database's
primary shard, if the database exists. -/
def shardsModel {V : Type} [LinearOrder V] (t : Topo V) (n : NS) : List (String × Nat × Nat) :=
  if n.db = "config" then [("config", 0, 0)]
  else
    match collection t n.ns with
    | some _ =>
      ((t.chunks.filter (fun c => c.ns = n.ns)).map
        (fun c => (c.shard, c.epoch, c.stamp))).foldl vsInsert []
    | none =>
      match database t n.db with
      | some d => [(d.primary, 0, 0)]
      | none => []

/-- `criteria[kel.name()]`: first matching field of the criteria document. -/
def lookupC {V : Type} (cr : List (String × Crit V)) (f : String) : Option (Crit V) :=
  (cr.find? (fun p => p.1 = f)).map (fun p => p.2)

/-- The loop state of the sharding-key scan in `Config::find` (config.cpp lines
199-221): the `$in` field seen so far (`vectorName`/`vectorValues`) and the
plain key fields accumulated before (`headb`) and after it (`tailb`). -/
structure LoopSt (V : Type) where
  vecName : Option String
  vecVals : List V
  head : List (String × V)
  tail : List (String × V)

/-- The `for (const bson::Element& kel: coll->shardingKey())` loop of
`Config::find`: a missing criteria field, a second `$in`, or any other operator
makes the routing fall back to all shards (`none`); otherwise plain values
accumulate into head/tail around an optional single `$in` vector. -/
def procFields {V : Type} (cr : List (String × Crit V)) :
    List (String × SKVal) → LoopSt V → Option (LoopSt V)
  | [], st => some st
  | (f, _) :: rest, st =>
    match lookupC cr f with
    | none => none
    | some (Crit.val v) =>
        if st.vecName.isNone then
          procFields cr rest { st with head := st.head ++ [(f, v)] }
        else
          procFields cr rest { st with tail := st.tail ++ [(f, v)] }
    | some (Crit.inList vs) =>
        if st.vecName.isNone then
          procFields cr rest { st with vecName := some f, vecVals := vs }
        else none
    | some Crit.otherOp => none

/-- The `hashedField` computation of `Config::find` (config.cpp lines 193-196):
the field name when the sharding key is exactly one field whose value is the
string `"hashed"`. -/
def hashedField (c : Coll) : Option String :=
  match c.keyFields with
  | [(f, SKVal.hashed)] => some f
  | _ => none

/-- The key object handed to `doFind`: the field values in sharding-key order,
or — in the hashed case — the single-field object `{field: hash(key[field])}`
(config.cpp line 226, with `hash` abstracted as `hashFn`). -/
def buildKey {V : Type} (hashFn : V → V) (hf : Option String) (fields : List (String × V)) :
    List V :=
  match hf with
  | none => fields.map (fun p => p.2)
  | some f =>
      match (fields.find? (fun p => p.1 = f)).map (fun p => p.2) with
      | some v => [hashFn v]
      | none => []

/-- Run a fallible function over a list, failing if any element fails (the
`for (const bson::Element& v: vectorValues) ret.insert(doFind(..))` loop, where
any `ASSERT` failure aborts the whole call). -/
def optMapList {α β : Type} (f : α → Option β) : List α → Option (List β)
  | [] => some []
  | a :: as =>
    match f a with
    | none => none
    | some b => (optMapList f as).map (fun bs => b :: bs)

/-- `Config::find(ns, criteria)` (config.cpp lines 187-250): an unsharded
collection or an under- or over-constrained criteria document routes to
`shards(ns)`; a fully constrained one routes through `doFind` — once on the head
key when there is no `$in`, else once per `$in` value with the results
deduplicated by shard. `none` models an aborted call (a failed `ASSERT` inside
`doFind`). -/
def findModel {V : Type} [LinearOrder V] (hashFn : V → V) (t : Topo V) (n : NS)
    (cr : List (String × Crit V)) : Option (List (String × Nat × Nat)) :=
  match collection t n.ns with
  | none => some (shardsModel t n)
  | some coll =>
    match procFields cr coll.keyFields ⟨none, [], [], []⟩ with
    | none => some (shardsModel t n)
    | some st =>
      match st.vecName with
      | none =>
          (doFind t.chunks n.ns (buildKey hashFn (hashedField coll) st.head)).map
            (fun vs => [vs])
      | some vn =>
          (optMapList (fun v =>
            doFind t.chunks n.ns
              (buildKey hashFn (hashedField coll) (st.head ++ [(vn, v)] ++ st.tail)))
            st.vecVals).map
            (fun l => l.foldl vsInsert [])

/-- The shard ids of a list of versioned shards. -/
def shardIds (l : List (String × Nat × Nat)) : List String := l.map Prod.fst

/-- The chunk list is sorted by `(ns, lowerBound)` the way the `SortedVector`
`chunks_` keeps it: no later chunk compares strictly below an earlier one. -/
def SortedChunks {V : Type} [LinearOrder V] (l : List (Chunk V)) : Prop :=
  l.Pairwise (fun a b => ckLtB (sortKey b) (sortKey a) = false)

instance {V : Type} [LinearOrder V] (l : List (Chunk V)) : Decidable (SortedChunks l) := by
  unfold SortedChunks; infer_instance

/-- The counterexample topology: a sharded collection living in the `config`
database. One chunk covering everything on shard `"A"`. -/
def ceTopo : Topo Int :=
  { chunks := [⟨"config.c", none, none, "A", 1, 1⟩],
    colls := [⟨"config.c", [("k", SKVal.plain)]⟩],
    dbs := [] }

/-- The namespace `config.c` of the counterexample. -/
def ceNS : NS := ⟨"config", "c"⟩

/-- The witness topology: `db.c` sharded over `"A"` (keys below `[10]`) and
`"B"` (keys from `[10]` up). -/
def wTopo : Topo Int :=
  { chunks := [⟨"db.c", none, some [10], "A", 1, 1⟩, ⟨"db.c", some [10], none, "B", 1, 2⟩],
    colls := [⟨"db.c", [("k", SKVal.plain)]⟩],
    dbs := [⟨"db", "A"⟩] }

/-- The namespace `db.c` of the witness. -/
def wNS : NS := ⟨"db", "c"⟩

end Router

end Mongoz

namespace Mongoz

namespace SelectLocal

theorem cdiv_le_iff (a n r : Nat) (hn : 0 < n) : cdiv a n ≤ r ↔ a ≤ r * n := by
  unfold cdiv
  rw [Nat.div_le_iff_le_mul_add_pred hn, Nat.mul_comm n r]
  omega

theorem lt_cdiv_iff (b n r : Nat) (hn : 0 < n) : r < cdiv b n ↔ r * n < b := by
  rw [← Nat.not_le, ← Nat.not_le, cdiv_le_iff b n r hn]

/-- The set of draws selecting index `k` is the interval
`[⌈kM/n⌉, ⌈(k+1)M/n⌉)`. -/
theorem drawCount_eq (M n k : Nat) (hn : 0 < n) (hk : k < n) (hnM : n ≤ M) :
    ((Finset.range M).filter (fun r => r * n / M = k)).card =
      cdiv ((k + 1) * M) n - cdiv (k * M) n := by
  have hM : 0 < M := lt_of_lt_of_le hn hnM
  have hub : cdiv ((k + 1) * M) n ≤ M := by
    rw [cdiv_le_iff _ _ _ hn, Nat.mul_comm M n]
    exact Nat.mul_le_mul_right M hk
  have : (Finset.range M).filter (fun r => r * n / M = k) =
      Finset.Ico (cdiv (k * M) n) (cdiv ((k + 1) * M) n) := by
    ext r
    simp only [Finset.mem_filter, Finset.mem_range, Finset.mem_Ico]
    constructor
    · rintro ⟨hrM, hdiv⟩
      have h1 : k * M ≤ r * n := (Nat.le_div_iff_mul_le hM).mp (le_of_eq hdiv.symm)
      have h2 : r * n < (k + 1) * M := (Nat.div_lt_iff_lt_mul hM).mp (by omega)
      exact ⟨(cdiv_le_iff _ _ _ hn).mpr h1, (lt_cdiv_iff _ _ _ hn).mpr h2⟩
    · rintro ⟨hlb, hub2⟩
      have h1 : k * M ≤ r * n := (cdiv_le_iff _ _ _ hn).mp hlb
      have h2 : r * n < (k + 1) * M := (lt_cdiv_iff _ _ _ hn).mp hub2
      have hrM : r < M := lt_of_lt_of_le hub2 hub
      refine ⟨hrM, ?_⟩
      have hk1 : k ≤ r * n / M := (Nat.le_div_iff_mul_le hM).mpr (by linarith [h1])
      have hk2 : r * n / M < k + 1 := (Nat.div_lt_iff_lt_mul hM).mpr (by linarith [h2])
      omega
  rw [this, Nat.card_Ico]

theorem cdiv_add_le (a s n : Nat) (hn : 0 < n) (hs : s ≤ n) :
    cdiv (a + s) n ≤ cdiv a n + 1 := by
  unfold cdiv
  have h1 : a + s + n - 1 ≤ (a + n - 1) + n := by omega
  calc (a + s + n - 1) / n ≤ ((a + n - 1) + n) / n := Nat.div_le_div_right h1
  _ = (a + n - 1) / n + 1 := Nat.add_div_right _ hn

theorem cdiv_mono (a b n : Nat) (hab : a ≤ b) : cdiv a n ≤ cdiv b n := by
  unfold cdiv
  exact Nat.div_le_div_right (by omega)

/-- The number of draws of `rand()` that select candidate index `k` is either
`⌊M/n⌋` or `⌊M/n⌋ + 1`; in particular every index in the range is selected by
roughly a `1/n` fraction of draws. -/
theorem drawCount_near_uniform (M n k : Nat) (hn : 0 < n) (hk : k < n) (hnM : n ≤ M) :
    ((Finset.range M).filter (fun r => r * n / M = k)).card = M / n ∨
    ((Finset.range M).filter (fun r => r * n / M = k)).card = M / n + 1 := by
  rw [drawCount_eq M n k hn hk hnM]
  obtain ⟨q, s, hM, hsn, hq⟩ : ∃ q s, M = n * q + s ∧ s < n ∧ M / n = q :=
    ⟨M / n, M % n, (Nat.div_add_mod M n).symm, Nat.mod_lt M hn, rfl⟩
  rw [hq]
  have hdecomp : (k + 1) * M = (k * M + s) + n * q := by
    rw [Nat.succ_mul]
    omega
  have h1 : cdiv ((k + 1) * M) n = cdiv (k * M + s) n + q := by
    rw [hdecomp]
    unfold cdiv
    have harr : k * M + s + n * q + n - 1 = (k * M + s + n - 1) + n * q := by omega
    rw [harr, Nat.add_mul_div_left _ _ hn]
  have h2 : cdiv (k * M) n ≤ cdiv (k * M + s) n := cdiv_mono _ _ n (by omega)
  have h3 : cdiv (k * M + s) n ≤ cdiv (k * M) n + 1 := cdiv_add_le _ _ n hn (le_of_lt hsn)
  omega

theorem keptLen_eq_zero_iff (c : Backend) (rest : List Backend) (lt : Nat) :
    keptLen (c :: rest) (c.rt + lt) = 0 ↔ lt = 0 := by
  unfold keptLen
  rw [List.takeWhile_cons]
  rcases Nat.eq_zero_or_pos lt with h0 | hpos
  · subst h0
    simp
  · have h : c.rt < c.rt + lt := by omega
    simp only [h, decide_True, if_true, List.length_cons]
    omega

theorem selectRange_pos (c : Backend) (rest : List Backend) (lt : Nat) :
    0 < selectRange (c :: rest) lt := by
  unfold selectRange
  by_cases h : keptLen (c :: rest) (c.rt + lt) = 0
  · simp [h]
  · simp only [h, if_false]
    omega

theorem selectRange_le_length (c : Backend) (rest : List Backend) (lt : Nat) :
    selectRange (c :: rest) lt ≤ (c :: rest).length := by
  unfold selectRange
  by_cases h : keptLen (c :: rest) (c.rt + lt) = 0
  · simp [h]
  · simp only [h, if_false]
    exact (List.takeWhile_sublist _).length_le

/-- C1, counterexample: with candidate roundtrips `[1, 100]` (already sorted)
and `localThreshold = 5`, the kept segment of candidates with roundtrip below
`fastest + localThreshold` contains exactly the fastest candidate, yet the
selection range stays at 1 rather than widening to the whole candidate set of
size 2: `Multiple::selectLocal` widens only when the kept segment is empty.
Even the draw `r = RAND_MAX` (the draw the claim maps to the last candidate
of the widened set) still selects the fastest backend. -/
theorem selectLocal_claim_counterexample :
    keptLen [⟨1, 0⟩, ⟨100, 1⟩] (1 + 5) = 1 ∧
    selectRange [⟨1, 0⟩, ⟨100, 1⟩] 5 = 1 ∧
    ([(⟨1, 0⟩ : Backend), ⟨100, 1⟩].length = 2) ∧
    selectLocal (fun _ => true) [⟨100, 1⟩, ⟨1, 0⟩] 5 (randMax1 - 1) = some ⟨1, 0⟩ := by
  refine ⟨by decide, by decide, by decide, ?_⟩
  have hsort : (calcByRoundtrip [⟨100, 1⟩, ⟨1, 0⟩]).filter (fun _ => true) =
      [⟨1, 0⟩, ⟨100, 1⟩] := by
    unfold calcByRoundtrip
    rfl
  simp only [selectLocal, hsort]
  decide

/-- C1, amended behaviour of `Multiple::selectLocal` over any candidate list:
(i) the kept segment (roundtrip strictly below `fastest + localThreshold`) is
empty iff `localThreshold` is zero; (ii) when the segment is non-empty the
selection range is exactly that segment — no widening — and when it is empty
the range widens to the whole candidate list; (iii) the selected index
`rand() * range / (RAND_MAX + 1)` always lies inside the selection range, and
the function returns the candidate at that index; (iv) each index of the range
is drawn by either `⌊(RAND_MAX + 1) / range⌋` or `⌊(RAND_MAX + 1) / range⌋ + 1`
of the `RAND_MAX + 1` equiprobable draws, i.e. the choice is uniform up to one
part in `2 ^ 31`. -/
theorem selectLocal_localThreshold_selection (pred : Backend → Bool)
    (backends : List Backend) (lt r : Nat) (c : Backend) (rest : List Backend)
    (hc : (calcByRoundtrip backends).filter pred = c :: rest)
    (hr : r < randMax1)
    (hlen : (c :: rest).length ≤ randMax1) :
    (keptLen (c :: rest) (c.rt + lt) = 0 ↔ lt = 0) ∧
    (0 < keptLen (c :: rest) (c.rt + lt) →
      selectRange (c :: rest) lt = keptLen (c :: rest) (c.rt + lt)) ∧
    (keptLen (c :: rest) (c.rt + lt) = 0 →
      selectRange (c :: rest) lt = (c :: rest).length) ∧
    r * selectRange (c :: rest) lt / randMax1 < selectRange (c :: rest) lt ∧
    selectLocal pred backends lt r =
      some ((c :: rest).getD (r * selectRange (c :: rest) lt / randMax1) c) ∧
    (∀ k, k < selectRange (c :: rest) lt →
      ((Finset.range randMax1).filter
          (fun q => q * selectRange (c :: rest) lt / randMax1 = k)).card
        = randMax1 / selectRange (c :: rest) lt ∨
      ((Finset.range randMax1).filter
          (fun q => q * selectRange (c :: rest) lt / randMax1 = k)).card
        = randMax1 / selectRange (c :: rest) lt + 1) := by
  have hM : 0 < randMax1 := by decide
  have hpos := selectRange_pos c rest lt
  have hle := selectRange_le_length c rest lt
  have hidx : r * selectRange (c :: rest) lt / randMax1 < selectRange (c :: rest) lt := by
    rw [Nat.div_lt_iff_lt_mul hM]
    calc r * selectRange (c :: rest) lt
        < randMax1 * selectRange (c :: rest) lt :=
          (Nat.mul_lt_mul_right hpos).mpr hr
    _ = selectRange (c :: rest) lt * randMax1 := Nat.mul_comm _ _
  refine ⟨keptLen_eq_zero_iff c rest lt, ?_, ?_, hidx, ?_, ?_⟩
  · intro hp
    unfold selectRange
    simp only [Nat.pos_iff_ne_zero] at hp
    simp [hp]
  · intro hp
    unfold selectRange
    simp [hp]
  · simp only [selectLocal, hc]
  · intro k hk
    exact drawCount_near_uniform randMax1 (selectRange (c :: rest) lt) k hpos hk
      (le_trans hle hlen)

/-- Witness: the amended selection theorem applied to the concrete candidate
list `[⟨1, 0⟩, ⟨100, 1⟩]`, threshold 5 and draw 0: the fastest backend is
selected. -/
theorem selectLocal_localThreshold_selection_witness :
    selectLocal (fun _ => true) [⟨1, 0⟩, ⟨100, 1⟩] 5 0 = some ⟨1, 0⟩ :=
  ((selectLocal_localThreshold_selection (fun _ => true) [⟨1, 0⟩, ⟨100, 1⟩] 5 0
      ⟨1, 0⟩ [⟨100, 1⟩] rfl (by decide) (by decide)).2.2.2.2.1).trans (by decide)

end SelectLocal

namespace ConnPool

theorem release_bounded (connPoolSize : Nat) (s : PoolState) (c : Conn)
    (h : Bounded connPoolSize s) : Bounded connPoolSize (release connPoolSize s c) := by
  obtain ⟨h1, h2⟩ := h
  unfold release Bounded
  by_cases hp : c.isPrimary
  · simp only [hp, if_true]
    by_cases hlen : s.primaries.length < connPoolSize
    · simp only [hlen, if_true, List.length_cons]
      exact ⟨hlen, h2⟩
    · simp only [hlen, if_false]
      exact ⟨h1, h2⟩
  · simp only [hp, if_false]
    by_cases hlen : s.conns.length < connPoolSize
    · simp only [hlen, if_true, List.length_cons]
      exact ⟨h1, hlen⟩
    · simp only [hlen, if_false]
      exact ⟨h1, h2⟩

theorem stepPool_bounded (connPoolSize : Nat) (s : PoolState) (op : PoolOp)
    (h : Bounded connPoolSize s) : Bounded connPoolSize (stepPool connPoolSize s op) := by
  obtain ⟨h1, h2⟩ := h
  cases op with
  | getPrimary =>
    refine ⟨?_, h2⟩
    cases hs : s.primaries with
    | nil => simp [stepPool, popPool, hs]
    | cons c rest =>
      simp only [stepPool, popPool, hs]
      have := hs ▸ h1
      simp only [List.length_cons] at this
      omega
  | getAny =>
    refine ⟨h1, ?_⟩
    cases hs : s.conns with
    | nil => simp [stepPool, popPool, hs]
    | cons c rest =>
      simp only [stepPool, popPool, hs]
      have := hs ▸ h2
      simp only [List.length_cons] at this
      omega
  | flush => exact ⟨by simp [stepPool], by simp [stepPool]⟩
  | release c => exact release_bounded connPoolSize s c ⟨h1, h2⟩

theorem runPool_bounded (connPoolSize : Nat) (s : PoolState) (ops : List PoolOp)
    (h : Bounded connPoolSize s) : Bounded connPoolSize (runPool connPoolSize s ops) := by
  induction ops generalizing s with
  | nil => exact h
  | cons op rest ih => exact ih _ (stepPool_bounded connPoolSize s op h)

/-- C8: `release` pushes a connection back into its pool iff that pool holds
fewer than `connPoolSize` connections (otherwise the connection is discarded
and the state is unchanged), and consequently, starting from empty pools,
no sequence of `getPrimary`/`getAny`/`flush`/`release` operations ever leaves
either pool holding more than `connPoolSize` connections. -/
theorem endpoint_pools_bounded (connPoolSize : Nat) (ops : List PoolOp) :
    (∀ s c, c.isPrimary = true →
      release connPoolSize s c =
        (if s.primaries.length < connPoolSize
          then ⟨c :: s.primaries, s.conns⟩ else s)) ∧
    (∀ s c, c.isPrimary = false →
      release connPoolSize s c =
        (if s.conns.length < connPoolSize
          then ⟨s.primaries, c :: s.conns⟩ else s)) ∧
    Bounded connPoolSize (runPool connPoolSize initState ops) := by
  refine ⟨fun s c hc => by simp [release, hc], fun s c hc => by simp [release, hc], ?_⟩
  have hinit : Bounded connPoolSize initState := by
    constructor <;> simp [initState]
  exact runPool_bounded connPoolSize initState ops hinit

end ConnPool

namespace DataSourceId

/-- C10: as long as fewer than `2 ^ 64` datasources are created in one
process run (the counter is 64-bit and would only wrap after that), every
generated id is nonzero and ids of distinct datasources are pairwise
distinct; hence the cursor id `Session::feed` writes for a retained cursor
(`hdr().cursorID = datasource->id()`) never equals the wire protocol's 0
sentinel and never collides with another live cursor's id. -/
theorem generateID_nonzero_distinct (i j : Nat) (hij : i < j) (hj : j < u64 - 1) :
    generateID i ≠ 0 ∧ generateID j ≠ 0 ∧ generateID i ≠ generateID j := by
  have hu : u64 = 2 ^ 64 := rfl
  have hi1 : i + 1 < u64 := by omega
  have hj1 : j + 1 < u64 := by omega
  have gi : generateID i = i + 1 := Nat.mod_eq_of_lt hi1
  have gj : generateID j = j + 1 := Nat.mod_eq_of_lt hj1
  refine ⟨?_, ?_, ?_⟩
  · rw [gi]; omega
  · rw [gj]; omega
  · rw [gi, gj]; omega

/-- Witness: the first two datasources created get the distinct nonzero
ids 1 and 2. -/
theorem generateID_nonzero_distinct_witness :
    generateID 0 ≠ 0 ∧ generateID 1 ≠ 0 ∧ generateID 0 ≠ generateID 1 :=
  generateID_nonzero_distinct 0 1 (by decide) (by decide)

end DataSourceId

namespace AckMerge

/-- Projection of the merging loop to the `err` accumulator. -/
theorem foldl_mergeStep_err (rets : List Ack) (acc : MergeAcc) :
    (rets.foldl mergeStep acc).err =
      rets.foldl (fun a r => stepErr a r.err) acc.err := by
  induction rets generalizing acc with
  | nil => rfl
  | cons r rest ih =>
    rw [List.foldl_cons, List.foldl_cons, ih]
    rfl

theorem foldl_mergeStep_code (rets : List Ack) (acc : MergeAcc) :
    (rets.foldl mergeStep acc).code =
      rets.foldl (fun a r => firstSome a r.code) acc.code := by
  induction rets generalizing acc with
  | nil => rfl
  | cons r rest ih =>
    rw [List.foldl_cons, List.foldl_cons, ih]
    rfl

theorem foldl_mergeStep_n (rets : List Ack) (acc : MergeAcc) :
    (rets.foldl mergeStep acc).n =
      rets.foldl
        (fun a r => match r.n with | some f => (a + f.val) % u64 | none => a)
        acc.n := by
  induction rets generalizing acc with
  | nil => rfl
  | cons r rest ih =>
    rw [List.foldl_cons, List.foldl_cons, ih]
    rcases hr : r.n with _ | f <;> simp [mergeStep, hr]

theorem foldl_mergeStep_hasUE (rets : List Ack) (acc : MergeAcc) :
    (rets.foldl mergeStep acc).hasUpdatedExisting =
      (acc.hasUpdatedExisting || rets.any (fun r => r.updatedExisting.isSome)) := by
  induction rets generalizing acc with
  | nil => simp
  | cons r rest ih =>
    rw [List.foldl_cons, ih, List.any_cons]
    simp [mergeStep, Bool.or_assoc]

theorem foldl_mergeStep_ue (rets : List Ack) (acc : MergeAcc) :
    (rets.foldl mergeStep acc).updatedExisting =
      (acc.updatedExisting || rets.any (fun r => r.updatedExisting.getD false)) := by
  induction rets generalizing acc with
  | nil => simp
  | cons r rest ih =>
    rw [List.foldl_cons, ih, List.any_cons]
    simp [mergeStep, Bool.or_assoc]

theorem foldl_mergeStep_upserted (rets : List Ack) (acc : MergeAcc) :
    (rets.foldl mergeStep acc).upserted =
      rets.foldl (fun a r => firstSome a r.upserted) acc.upserted := by
  induction rets generalizing acc with
  | nil => rfl
  | cons r rest ih =>
    rw [List.foldl_cons, List.foldl_cons, ih]
    rfl

theorem foldl_mergeStep_wtimeout (rets : List Ack) (acc : MergeAcc) :
    (rets.foldl mergeStep acc).wtimeout =
      (acc.wtimeout || rets.any (fun r => r.wtimeout.getD false)) := by
  induction rets generalizing acc with
  | nil => simp
  | cons r rest ih =>
    rw [List.foldl_cons, ih, List.any_cons]
    simp [mergeStep, Bool.or_assoc]

theorem foldl_mergeStep_waited (rets : List Ack) (acc : MergeAcc) :
    (rets.foldl mergeStep acc).waited =
      (rets.filterMap (fun r => r.waited)).foldl max acc.waited := by
  induction rets generalizing acc with
  | nil => rfl
  | cons r rest ih =>
    rw [List.foldl_cons, ih]
    rcases hr : r.waited with _ | v <;> simp [mergeStep, hr, List.filterMap_cons]

theorem foldl_mergeStep_wtime (rets : List Ack) (acc : MergeAcc) :
    (rets.foldl mergeStep acc).wtime =
      (rets.filterMap (fun r => r.wtime)).foldl max acc.wtime := by
  induction rets generalizing acc with
  | nil => rfl
  | cons r rest ih =>
    rw [List.foldl_cons, ih]
    rcases hr : r.wtime with _ | v <;> simp [mergeStep, hr, List.filterMap_cons]

theorem errFold_stable (rets : List Ack) (acc : Option ErrVal)
    (hacc : nonNull acc = true) :
    rets.foldl (fun a r => stepErr a r.err) acc = acc := by
  induction rets with
  | nil => rfl
  | cons r rest ih =>
    rw [List.foldl_cons]
    have : stepErr acc r.err = acc := by
      unfold stepErr
      rcases r.err with _ | v
      · rfl
      · simp [hacc]
    rw [this, ih]

theorem errFold_nonNull_iff (rets : List Ack) (acc : Option ErrVal)
    (hacc : nonNull acc = false) :
    (nonNull (rets.foldl (fun a r => stepErr a r.err) acc) = true ↔
      ∃ r ∈ rets, nonNull r.err = true) := by
  induction rets generalizing acc with
  | nil => simp [hacc]
  | cons r rest ih =>
    rw [List.foldl_cons]
    by_cases hr : nonNull r.err = true
    · have hstep : stepErr acc r.err = r.err := by
        unfold stepErr
        rcases he : r.err with _ | v
        · rw [he] at hr; simp [nonNull] at hr
        · simp [hacc]
      rw [hstep, errFold_stable rest r.err hr]
      simp only [hr, true_iff, iff_true]
      exact ⟨r, List.mem_cons_self r rest, hr⟩
    · have hstep : nonNull (stepErr acc r.err) = false := by
        unfold stepErr
        rcases he : r.err with _ | v
        · exact hacc
        · rw [he] at hr
          simp [hacc, hr]
      rw [ih _ hstep]
      constructor
      · rintro ⟨x, hx, hnx⟩
        exact ⟨x, List.mem_cons_of_mem r hx, hnx⟩
      · rintro ⟨x, hx, hnx⟩
        rcases List.mem_cons.mp hx with hx | hx
        · subst hx
          rw [hnx] at hr
          exact absurd rfl hr
        · exact ⟨x, hx, hnx⟩

theorem errFold_first (rets : List Ack) (acc : Option ErrVal)
    (hacc : nonNull acc = false) (e : ErrVal)
    (hfind : rets.findSome? pickNonNull = some e) :
    rets.foldl (fun a r => stepErr a r.err) acc = some e := by
  induction rets generalizing acc with
  | nil => simp [List.findSome?] at hfind
  | cons r rest ih =>
    rw [List.foldl_cons]
    rw [List.findSome?_cons] at hfind
    rcases he : r.err with _ | v
    · have hpick : pickNonNull r = none := by simp [pickNonNull, he]
      rw [hpick] at hfind
      exact ih _ (by simpa [stepErr, he] using hacc) hfind
    · rcases v with _ | m
      · have hpick : pickNonNull r = none := by simp [pickNonNull, he]
        rw [hpick] at hfind
        have hstep : stepErr acc (some ErrVal.null) = some ErrVal.null := by
          simp [stepErr, hacc]
        rw [hstep]
        exact ih _ (by simp [nonNull]) hfind
      · have hpick : pickNonNull r = some (ErrVal.msg m) := by simp [pickNonNull, he]
        rw [hpick] at hfind
        have hstep : stepErr acc (some (ErrVal.msg m)) = some (ErrVal.msg m) := by
          simp [stepErr, hacc]
        rw [hstep]
        rw [errFold_stable rest _ (by simp [nonNull])]
        simpa using hfind

theorem firstFold_some {α : Type} (f : Ack → Option α) (rets : List Ack) (x : α) :
    rets.foldl (fun a r => firstSome a (f r)) (some x) = some x := by
  induction rets with
  | nil => rfl
  | cons r rest ih => rw [List.foldl_cons]; exact ih

theorem firstFold_none {α : Type} (f : Ack → Option α) (rets : List Ack) :
    rets.foldl (fun a r => firstSome a (f r)) none = rets.findSome? f := by
  induction rets with
  | nil => rfl
  | cons r rest ih =>
    rw [List.foldl_cons, List.findSome?_cons]
    rcases hf : f r with _ | x
    · simpa [firstSome, hf] using ih
    · simp only [firstSome, hf]
      exact firstFold_some f rest x

theorem nFold (rets : List Ack) (acc : Nat) (hacc : acc < u64) :
    rets.foldl
        (fun a r => match r.n with | some f => (a + f.val) % u64 | none => a)
        acc
      = (acc + (rets.map nVal).sum) % u64 := by
  induction rets generalizing acc with
  | nil =>
    simp [Nat.mod_eq_of_lt hacc]
  | cons r rest ih =>
    rw [List.foldl_cons]
    rcases hr : r.n with _ | f
    · rw [ih acc hacc]
      simp [nVal, hr]
    · have hlt : (acc + f.val) % u64 < u64 := Nat.mod_lt _ (by decide)
      rw [ih _ hlt]
      rw [Nat.mod_add_mod]
      simp [nVal, hr, Nat.add_assoc]

/-- C4: on every list of two or more sub-acknowledgements the default merger
returns a document whose `ok` is 1 iff no sub-ack carries a non-null `err`
and 0 otherwise, in which case `err` is the first non-null `err` seen;
whose `code` is the first `code` present; whose `n` is the sum of the
sub-acks' `n` fields, stored as a 64-bit integer exactly when the sum
overflows 32 bits; whose `updatedExisting` is the disjunction of the present
values (present iff any sub-ack carries the field); whose `upserted` is the
first present value; whose `wtimeout` is the disjunction (emitted only when
true); and whose `waited`/`wtime` are the element-wise maxima of the present
values (emitted only when nonzero). -/
theorem defaultAckMerger_combines (rets : List Ack) (h2 : 2 ≤ rets.length)
    (hsum : (rets.map nVal).sum < u64) :
    ((defaultAckMerger rets).ok = some 1 ↔ ∀ r ∈ rets, nonNull r.err = false) ∧
    (∀ e, rets.findSome? pickNonNull = some e →
      (defaultAckMerger rets).ok = some 0 ∧ (defaultAckMerger rets).err = some e) ∧
    (defaultAckMerger rets).code = rets.findSome? (fun r => r.code) ∧
    (defaultAckMerger rets).n =
      some ⟨decide (int32max < (rets.map nVal).sum), (rets.map nVal).sum⟩ ∧
    (defaultAckMerger rets).updatedExisting =
      (if rets.any (fun r => r.updatedExisting.isSome)
        then some (rets.any (fun r => r.updatedExisting.getD false)) else none) ∧
    (defaultAckMerger rets).upserted = rets.findSome? (fun r => r.upserted) ∧
    (defaultAckMerger rets).wtimeout =
      (if rets.any (fun r => r.wtimeout.getD false) then some true else none) ∧
    (defaultAckMerger rets).waited =
      (if (rets.filterMap (fun r => r.waited)).foldl max 0 = 0 then none
        else some ((rets.filterMap (fun r => r.waited)).foldl max 0)) ∧
    (defaultAckMerger rets).wtime =
      (if (rets.filterMap (fun r => r.wtime)).foldl max 0 = 0 then none
        else some ((rets.filterMap (fun r => r.wtime)).foldl max 0)) := by
  rcases rets with _ | ⟨a, _ | ⟨b, rest⟩⟩
  · simp at h2
  · simp at h2
  have hok_eq : (defaultAckMerger (a :: b :: rest)).ok =
      some (if nonNull ((a :: b :: rest).foldl mergeStep acc0).err then 0 else 1) := rfl
  have herr_eq : (defaultAckMerger (a :: b :: rest)).err =
      ((a :: b :: rest).foldl mergeStep acc0).err := rfl
  have hcode_eq : (defaultAckMerger (a :: b :: rest)).code =
      ((a :: b :: rest).foldl mergeStep acc0).code := rfl
  have hn_eq : (defaultAckMerger (a :: b :: rest)).n =
      some ⟨decide (int32max < ((a :: b :: rest).foldl mergeStep acc0).n),
        ((a :: b :: rest).foldl mergeStep acc0).n⟩ := rfl
  have hue_eq : (defaultAckMerger (a :: b :: rest)).updatedExisting =
      (if ((a :: b :: rest).foldl mergeStep acc0).hasUpdatedExisting
        then some (((a :: b :: rest).foldl mergeStep acc0).updatedExisting) else none) := rfl
  have hups_eq : (defaultAckMerger (a :: b :: rest)).upserted =
      ((a :: b :: rest).foldl mergeStep acc0).upserted := rfl
  have hwt_eq : (defaultAckMerger (a :: b :: rest)).wtimeout =
      (if ((a :: b :: rest).foldl mergeStep acc0).wtimeout then some true else none) := rfl
  have hw_eq : (defaultAckMerger (a :: b :: rest)).waited =
      (if ((a :: b :: rest).foldl mergeStep acc0).waited = 0 then none
        else some (((a :: b :: rest).foldl mergeStep acc0).waited)) := rfl
  have hw2_eq : (defaultAckMerger (a :: b :: rest)).wtime =
      (if ((a :: b :: rest).foldl mergeStep acc0).wtime = 0 then none
        else some (((a :: b :: rest).foldl mergeStep acc0).wtime)) := rfl
  have herr : ((a :: b :: rest).foldl mergeStep acc0).err =
      (a :: b :: rest).foldl (fun x r => stepErr x r.err) none :=
    foldl_mergeStep_err _ _
  have hn : ((a :: b :: rest).foldl mergeStep acc0).n =
      ((a :: b :: rest).map nVal).sum := by
    rw [foldl_mergeStep_n]
    have hfold := nFold (a :: b :: rest) 0 (by decide)
    simp only [acc0] at hfold ⊢
    rw [hfold, Nat.zero_add, Nat.mod_eq_of_lt hsum]
  have hiff := errFold_nonNull_iff (a :: b :: rest) none rfl
  constructor
  · -- ok = 1 iff no non-null err
    rw [hok_eq, herr]
    constructor
    · intro hok r hr
      have hC : nonNull ((a :: b :: rest).foldl (fun x r => stepErr x r.err) none) = false := by
        cases hval : nonNull ((a :: b :: rest).foldl (fun x r => stepErr x r.err) none)
        · rfl
        · rw [hval] at hok
          simp at hok
      cases hval : nonNull r.err
      · rfl
      · exfalso
        have hT := hiff.mpr ⟨r, hr, hval⟩
        rw [hC] at hT
        exact Bool.false_ne_true hT
    · intro hall
      have hC : nonNull ((a :: b :: rest).foldl (fun x r => stepErr x r.err) none) = false := by
        cases hval : nonNull ((a :: b :: rest).foldl (fun x r => stepErr x r.err) none)
        · rfl
        · obtain ⟨r, hr, hbad⟩ := hiff.mp hval
          rw [hall r hr] at hbad
          exact absurd hbad (by simp)
      rw [hC]
      simp
  refine ⟨?_, ?_, ?_, ?_, ?_, ?_, ?_, ?_⟩
  · -- first non-null err and ok = 0
    intro e hfind
    have hfold : ((a :: b :: rest).foldl (fun x r => stepErr x r.err) none) = some e :=
      errFold_first _ none rfl e hfind
    obtain ⟨r, _, hp⟩ := List.exists_of_findSome?_eq_some hfind
    have hmsg : nonNull (some e) = true := by
      unfold pickNonNull at hp
      rcases hre : r.err with _ | v
      · rw [hre] at hp
        simp at hp
      · rcases v with _ | m
        · rw [hre] at hp
          simp at hp
        · rw [hre] at hp
          simp at hp
          rw [← hp]
          rfl
    refine ⟨?_, ?_⟩
    · rw [hok_eq, herr, hfold, hmsg]
      rfl
    · rw [herr_eq, herr, hfold]
  · rw [hcode_eq, foldl_mergeStep_code]
    exact firstFold_none _ _
  · rw [hn_eq, hn]
  · rw [hue_eq, foldl_mergeStep_hasUE, foldl_mergeStep_ue]
    simp [acc0]
  · rw [hups_eq, foldl_mergeStep_upserted]
    exact firstFold_none _ _
  · rw [hwt_eq, foldl_mergeStep_wtimeout]
    simp [acc0]
  · rw [hw_eq, foldl_mergeStep_waited]
    rfl
  · rw [hw2_eq, foldl_mergeStep_wtime]
    rfl

/-- Witness: merging the two concrete acknowledgements
`{ok:1, err:null, n:3, updatedExisting:true, waited:7}` and
`{ok:1, err:"boom", n:4, upserted:9, wtimeout:true, waited:2, wtime:6}`
gives `ok:0`, `err:"boom"`, `n:7` (32-bit), `updatedExisting:true`,
`upserted:9`, `wtimeout:true`, `waited:7`, `wtime:6`. -/
theorem defaultAckMerger_combines_witness :
    (defaultAckMerger
        [⟨some 1, some ErrVal.null, none, some ⟨false, 3⟩, some true, none,
          some false, some 7, none⟩,
          ⟨some 1, some (ErrVal.msg "boom"), some 5, some ⟨false, 4⟩, none,
            some 9, some true, some 2, some 6⟩]).ok = some 0 ∧
    (defaultAckMerger
        [⟨some 1, some ErrVal.null, none, some ⟨false, 3⟩, some true, none,
          some false, some 7, none⟩,
          ⟨some 1, some (ErrVal.msg "boom"), some 5, some ⟨false, 4⟩, none,
            some 9, some true, some 2, some 6⟩]).n = some ⟨false, 7⟩ := by
  have h := defaultAckMerger_combines
    [⟨some 1, some ErrVal.null, none, some ⟨false, 3⟩, some true, none,
      some false, some 7, none⟩,
      ⟨some 1, some (ErrVal.msg "boom"), some 5, some ⟨false, 4⟩, none,
        some 9, some true, some 2, some 6⟩]
    (by decide) (by decide)
  refine ⟨(h.2.1 (ErrVal.msg "boom") (by decide)).1, h.2.2.2.1.trans (by decide)⟩

theorem agreeOptB_refl {α : Type} [DecidableEq α] (x : Option α) :
    agreeOptB x x = true := by
  rcases x with _ | u
  · rfl
  · simp [agreeOptB]

/-- C5, counterexample: the acknowledgement `a = {ok: 0, n: 0}` (a valid ack:
`validateAck` only requires `ok` and `n`) merged with the null ack yields
`{ok: 1, err: null, n: 0}` — the merger recomputes `ok` from the absence of a
non-null `err`, so the merged document disagrees with `a` on the commonly
present `ok` field and is not equal to `a` up to field presence. -/
theorem ackMerger_neutrality_counterexample :
    (defaultAckMerger
        [⟨some 0, none, none, some ⟨false, 0⟩, none, none, none, none, none⟩,
          nullAck]).ok = some 1 ∧
    (⟨some 0, none, none, some ⟨false, 0⟩, none, none, none, none, none⟩ : Ack).ok
      = some 0 ∧
    ackAgree
      (defaultAckMerger
        [⟨some 0, none, none, some ⟨false, 0⟩, none, none, none, none, none⟩,
          nullAck])
      ⟨some 0, none, none, some ⟨false, 0⟩, none, none, none, none, none⟩ = false := by
  refine ⟨by decide, by decide, by decide⟩

theorem mergedNull_err (a : Ack) :
    (defaultAckMerger [a, nullAck]).err =
      (if nonNull a.err then a.err else some ErrVal.null) := by
  obtain ⟨ok, err, code, n, ue, ups, wt, w, w2⟩ := a
  rcases err with _ | v
  · rfl
  · rcases v with _ | m <;> rfl

theorem mergedNull_ok (a : Ack) :
    (defaultAckMerger [a, nullAck]).ok = some (if nonNull a.err then 0 else 1) := by
  obtain ⟨ok, err, code, n, ue, ups, wt, w, w2⟩ := a
  rcases err with _ | v
  · rfl
  · rcases v with _ | m <;> rfl

theorem mergedNull_code (a : Ack) :
    (defaultAckMerger [a, nullAck]).code = a.code := by
  obtain ⟨ok, err, code, n, ue, ups, wt, w, w2⟩ := a
  rcases code with _ | v <;> rfl

theorem mergedNull_upserted (a : Ack) :
    (defaultAckMerger [a, nullAck]).upserted = a.upserted := by
  obtain ⟨ok, err, code, n, ue, ups, wt, w, w2⟩ := a
  rcases ups with _ | v <;> rfl

theorem mergedNull_n (a : Ack) (hn : ∀ f, a.n = some f → f.val < u64) :
    (defaultAckMerger [a, nullAck]).n =
      some ⟨decide (int32max < nVal a), nVal a⟩ := by
  obtain ⟨ok, err, code, n, ue, ups, wt, w, w2⟩ := a
  rcases n with _ | f
  · rfl
  · have hf : f.val < u64 := hn f rfl
    have hmod : ((0 + f.val) % u64 + 0) % u64 = f.val := by
      rw [Nat.zero_add, Nat.add_zero, Nat.mod_eq_of_lt hf, Nat.mod_eq_of_lt hf]
    have key : (defaultAckMerger
        [⟨ok, err, code, some f, ue, ups, wt, w, w2⟩, nullAck]).n =
        some (NField.mk (decide (int32max < ((0 + f.val) % u64 + 0) % u64))
          (((0 + f.val) % u64 + 0) % u64)) := rfl
    rw [key, hmod]
    rfl

theorem mergedNull_updatedExisting (a : Ack) :
    (defaultAckMerger [a, nullAck]).updatedExisting = a.updatedExisting := by
  obtain ⟨ok, err, code, n, ue, ups, wt, w, w2⟩ := a
  rcases ue with _ | b
  · rfl
  · show (if ((false || true) || false) = true then some ((false || b) || false) else none)
      = some b
    simp

theorem mergedNull_wtimeout (a : Ack) :
    (defaultAckMerger [a, nullAck]).wtimeout =
      (if a.wtimeout.getD false then some true else none) := by
  obtain ⟨ok, err, code, n, ue, ups, wt, w, w2⟩ := a
  rcases wt with _ | b
  · rfl
  · show (if ((false || b) || false) = true then some true else none)
      = (if b = true then some true else none)
    simp

theorem mergedNull_waited (a : Ack) :
    (defaultAckMerger [a, nullAck]).waited =
      (if (match a.waited with | some v => max 0 v | none => (0 : Int)) = 0 then none
        else some (match a.waited with | some v => max 0 v | none => (0 : Int))) := by
  obtain ⟨ok, err, code, n, ue, ups, wt, w, w2⟩ := a
  rcases w with _ | v <;> rfl

theorem mergedNull_wtime (a : Ack) :
    (defaultAckMerger [a, nullAck]).wtime =
      (if (match a.wtime with | some v => max 0 v | none => (0 : Int)) = 0 then none
        else some (match a.wtime with | some v => max 0 v | none => (0 : Int))) := by
  obtain ⟨ok, err, code, n, ue, ups, wt, w, w2⟩ := a
  rcases w2 with _ | v <;> rfl

/-- C5 (amended): the default merger is neutral on small inputs in this
sense — `merge([]) = {}` and `merge([a]) = a` exactly; and `merge([a, null-ack])`
agrees with `a` up to field presence on every field except `ok` (with `n`
compared numerically), while its `ok` is recomputed as 1 iff `a` carries no
non-null `err`. Consequently `merge([a, null-ack]) == a` up to field presence
whenever `a`'s own `ok` is consistent with its `err` field. -/
theorem ackMerger_neutrality (a : Ack)
    (hn : ∀ f, a.n = some f → f.val < u64) :
    defaultAckMerger [] = emptyAck ∧
    defaultAckMerger [a] = a ∧
    ackAgreeExceptOk (defaultAckMerger [a, nullAck]) a = true ∧
    (defaultAckMerger [a, nullAck]).ok = some (if nonNull a.err then 0 else 1) ∧
    (a.ok = some (if nonNull a.err then 0 else 1) →
      ackAgree (defaultAckMerger [a, nullAck]) a = true) := by
  have hexc : ackAgreeExceptOk (defaultAckMerger [a, nullAck]) a = true := by
    unfold ackAgreeExceptOk
    simp only [Bool.and_eq_true]
    refine ⟨⟨⟨⟨⟨⟨⟨?_, ?_⟩, ?_⟩, ?_⟩, ?_⟩, ?_⟩, ?_⟩, ?_⟩
    · rw [mergedNull_err]
      by_cases he : nonNull a.err = true
      · simp only [he, if_true]
        exact agreeOptB_refl _
      · have he2 : nonNull a.err = false := by
          cases hval : nonNull a.err
          · rfl
          · exact absurd hval he
        simp only [he2, Bool.false_eq_true, if_false]
        rcases ha : a.err with _ | v
        · rfl
        · rcases v with _ | m
          · simp [agreeOptB]
          · rw [ha] at he2
            simp [nonNull] at he2
    · rw [mergedNull_code]
      exact agreeOptB_refl _
    · rw [mergedNull_n a hn]
      rcases ha : a.n with _ | f
      · rfl
      · have : nVal a = f.val := by simp [nVal, ha]
        simp [agreeN, this]
    · rw [mergedNull_updatedExisting]
      exact agreeOptB_refl _
    · rw [mergedNull_upserted]
      exact agreeOptB_refl _
    · rw [mergedNull_wtimeout]
      rcases ha : a.wtimeout with _ | b
      · rfl
      · rcases b
        · simp [agreeOptB]
        · simp [agreeOptB]
    · rw [mergedNull_waited]
      rcases ha : a.waited with _ | v
      · simp [agreeOptB]
      · simp only
        by_cases hv : max 0 v = 0
        · simp [hv, agreeOptB]
        · have hvpos : 0 < v := by
            rcases le_or_lt v 0 with h | h
            · exact absurd (max_eq_left h) hv
            · exact h
          have hmax : max 0 v = v := max_eq_right hvpos.le
          have hv3 : ¬ v = 0 := by omega
          simp [hmax, hv3, agreeOptB]
    · rw [mergedNull_wtime]
      rcases ha : a.wtime with _ | v
      · simp [agreeOptB]
      · simp only
        by_cases hv : max 0 v = 0
        · simp [hv, agreeOptB]
        · have hvpos : 0 < v := by
            rcases le_or_lt v 0 with h | h
            · exact absurd (max_eq_left h) hv
            · exact h
          have hmax : max 0 v = v := max_eq_right hvpos.le
          have hv3 : ¬ v = 0 := by omega
          simp [hmax, hv3, agreeOptB]
  refine ⟨rfl, rfl, hexc, mergedNull_ok a, ?_⟩
  intro hok
  unfold ackAgree
  rw [Bool.and_eq_true]
  refine ⟨?_, hexc⟩
  rw [mergedNull_ok a, hok]
  exact agreeOptB_refl _

/-- Witness: the amended neutrality theorem applied to the concrete
acknowledgement `{ok: 1, err: "x", n: 5}` whose `ok` happens to be
inconsistent with its non-null `err`; all fields except `ok` survive the
merge with the null ack. -/
theorem ackMerger_neutrality_witness :
    ackAgreeExceptOk
      (defaultAckMerger
        [⟨some 1, some (ErrVal.msg "x"), none, some ⟨false, 5⟩, none, none,
          none, none, none⟩, nullAck])
      ⟨some 1, some (ErrVal.msg "x"), none, some ⟨false, 5⟩, none, none,
        none, none, none⟩ = true :=
  (ackMerger_neutrality
    ⟨some 1, some (ErrVal.msg "x"), none, some ⟨false, 5⟩, none, none,
      none, none, none⟩
    (fun f hf => by cases hf; decide)).2.2.1

end AckMerge

namespace HashDigest

/-- C6, counterexample: the double `2^63` is strictly above `INT64_MAX`, yet
the code does not saturate it to `INT64_MAX`: the saturation test compares
against `(double)INT64_MAX = 2^63` with a strict `>`, so this one value falls
through to the raw cast, whose result is undefined instead of `INT64_MAX`. -/
theorem hash_saturation_counterexample :
    ((int64max : ℚ) < ((2 : ℚ) ^ 63)) ∧
    doubleToI64 (DVal.fin ((2 : ℚ) ^ 63)) = none ∧
    doubleToI64 (DVal.fin ((2 : ℚ) ^ 63)) ≠ some int64max := by
  refine ⟨by norm_num [int64max], ?_, ?_⟩
  · simp only [doubleToI64]
    have h1 : ¬ ((2 : ℚ) ^ 63) < -((2 : ℚ) ^ 63) := by norm_num
    have h2 : ¬ ((2 : ℚ) ^ 63) < ((2 : ℚ) ^ 63) := lt_irrefl _
    rw [if_neg h1, if_neg h2, if_neg]
    intro hcon
    have ht : truncQ ((2 : ℚ) ^ 63) = 2 ^ 63 := by
      unfold truncQ
      rw [if_pos (by norm_num)]
      have : ((2 : ℚ) ^ 63) = ((2 ^ 63 : Int) : ℚ) := by push_cast; ring
      rw [this, Int.floor_intCast]
    rw [ht] at hcon
    have := hcon.2
    norm_num [int64max] at this
  · intro hcon
    simp only [doubleToI64] at hcon
    have h1 : ¬ ((2 : ℚ) ^ 63) < -((2 : ℚ) ^ 63) := by norm_num
    have h2 : ¬ ((2 : ℚ) ^ 63) < ((2 : ℚ) ^ 63) := lt_irrefl _
    rw [if_neg h1, if_neg h2] at hcon
    have ht : truncQ ((2 : ℚ) ^ 63) = 2 ^ 63 := by
      unfold truncQ
      rw [if_pos (by norm_num)]
      have : ((2 : ℚ) ^ 63) = ((2 ^ 63 : Int) : ℚ) := by push_cast; ring
      rw [this, Int.floor_intCast]
    rw [ht] at hcon
    have hbad : ¬ (int64min ≤ (2 ^ 63 : Int) ∧ (2 ^ 63 : Int) ≤ int64max) := by
      intro hcc
      have := hcc.2
      norm_num [int64max] at this
    rw [if_neg hbad] at hcon
    exact Option.noConfusion hcon

/-- C6 (amended): every numeric BSON value goes through a single 64-bit
integer path of the canonical digest — a double and an integer denoting the
same integral value in int64 range feed identical input to MD5 and so hash
to the same result; NaN hashes as the integer 0; a double below `-2^63`
(`(double)INT64_MIN`) saturates to `INT64_MIN`, and a double strictly above
`2^63` (`(double)INT64_MAX` after rounding) saturates to `INT64_MAX`; the
lone double equal to `2^63` — above `INT64_MAX` but not above the rounded
bound — escapes saturation into a raw cast with undefined result. -/
theorem hash_numeric_single_path :
    (∀ n : Int, int64min ≤ n → n ≤ int64max →
      digestInput (NumVal.vdouble (DVal.fin (n : ℚ))) = digestInput (NumVal.vint n)) ∧
    digestInput (NumVal.vdouble DVal.nan) = digestInput (NumVal.vint 0) ∧
    (∀ q : ℚ, q < -((2 : ℚ) ^ 63) → doubleToI64 (DVal.fin q) = some int64min) ∧
    (∀ q : ℚ, ((2 : ℚ) ^ 63) < q → doubleToI64 (DVal.fin q) = some int64max) := by
  refine ⟨?_, rfl, ?_, ?_⟩
  · intro n h1 h2
    have htr : truncQ ((n : ℚ)) = n := by
      unfold truncQ
      by_cases hn : (0 : ℚ) ≤ (n : ℚ)
      · rw [if_pos hn, Int.floor_intCast]
      · rw [if_neg hn, Int.ceil_intCast]
    have hc1 : ¬ ((n : ℚ) < -((2 : ℚ) ^ 63)) := by
      rw [not_lt]
      have : ((int64min : Int) : ℚ) ≤ ((n : Int) : ℚ) := by exact_mod_cast h1
      calc -((2 : ℚ) ^ 63) = ((int64min : Int) : ℚ) := by
            unfold int64min; push_cast; ring
      _ ≤ (n : ℚ) := this
    have hc2 : ¬ (((2 : ℚ) ^ 63) < (n : ℚ)) := by
      rw [not_lt]
      have hle : ((n : Int) : ℚ) ≤ ((int64max : Int) : ℚ) := by exact_mod_cast h2
      calc (n : ℚ) ≤ ((int64max : Int) : ℚ) := hle
      _ ≤ ((2 : ℚ) ^ 63) := by unfold int64max; push_cast; norm_num
    simp only [digestInput, doubleToI64]
    rw [if_neg hc1, if_neg hc2, htr, if_pos ⟨h1, h2⟩]
    rfl
  · intro q hq
    simp only [doubleToI64]
    rw [if_pos hq]
  · intro q hq
    simp only [doubleToI64]
    have h1 : ¬ (q < -((2 : ℚ) ^ 63)) := by
      rw [not_lt]
      calc -((2 : ℚ) ^ 63) ≤ ((2 : ℚ) ^ 63) := by norm_num
      _ ≤ q := le_of_lt hq
    rw [if_neg h1, if_pos hq]

/-- Witness: the double 5.0 and the integer 5 produce the same digest input;
the doubles `-2^64` and `2^64` saturate to `INT64_MIN` and `INT64_MAX`. -/
theorem hash_numeric_single_path_witness :
    digestInput (NumVal.vdouble (DVal.fin ((5 : Int) : ℚ))) =
      digestInput (NumVal.vint 5) ∧
    doubleToI64 (DVal.fin (-((2 : ℚ) ^ 64))) = some int64min ∧
    doubleToI64 (DVal.fin ((2 : ℚ) ^ 64)) = some int64max := by
  refine ⟨?_, ?_, ?_⟩
  · exact hash_numeric_single_path.1 5 (by norm_num [int64min]) (by norm_num [int64max])
  · exact hash_numeric_single_path.2.2.1 (-((2 : ℚ) ^ 64)) (by norm_num)
  · exact hash_numeric_single_path.2.2.2 ((2 : ℚ) ^ 64) (by norm_num)

end HashDigest

namespace ConfigEpochs

theorem groupUniform_append (l : List Chunk) (c : Chunk)
    (h : groupUniform (l ++ [c])) : groupUniform l := by
  intro c1 h1 c2 h2 hk
  exact h c1 (List.mem_append_left _ h1) c2 (List.mem_append_left _ h2) hk

theorem filter_append_singleton (l : List Chunk) (c : Chunk) (k : String × String) :
    (l ++ [c]).filter (fun x => key x = k) =
      l.filter (fun x => key x = k) ++ (if key c = k then [c] else []) := by
  rw [List.filter_append]
  congr 1
  by_cases hc : key c = k
  · simp [hc]
  · simp [hc]

theorem groupStampMax_append (l : List Chunk) (c : Chunk) (k : String × String) :
    groupStampMax (l ++ [c]) k =
      (if key c = k then max (groupStampMax l k) c.stamp else groupStampMax l k) := by
  unfold groupStampMax
  rw [filter_append_singleton]
  by_cases hc : key c = k
  · simp only [hc, if_true, List.map_append, List.foldl_append]
    rfl
  · simp [hc]

theorem ok_bind {α β : Type} (a : α) (f : α → Except String β) :
    (Except.ok a >>= f) = f a := rfl

theorem error_bind {α β : Type} (msg : String) (f : α → Except String β) :
    ((Except.error msg : Except String α) >>= f) = Except.error msg := rfl

theorem groupInfo_append_other (l : List Chunk) (c : Chunk) (k : String × String)
    (hk : ¬ key c = k) : groupInfo (l ++ [c]) k = groupInfo l k := by
  unfold groupInfo
  rw [groupStampMax_append, if_neg hk, filter_append_singleton, if_neg hk,
    List.append_nil]

theorem groupInfo_append_self_empty (l : List Chunk) (c : Chunk)
    (hgl : l.filter (fun x => key x = key c) = []) :
    groupInfo (l ++ [c]) (key c) = some (c.epoch, c.stamp) := by
  unfold groupInfo
  rw [groupStampMax_append, if_pos rfl, filter_append_singleton, hgl, if_pos rfl,
    List.nil_append]
  have h0 : groupStampMax l (key c) = 0 := by
    unfold groupStampMax
    rw [hgl]
    rfl
  rw [h0]
  simp

theorem groupInfo_append_self_cons (l : List Chunk) (c c0 : Chunk) (g : List Chunk)
    (hgl : l.filter (fun x => key x = key c) = c0 :: g) :
    groupInfo (l ++ [c]) (key c) =
      some (c0.epoch, max (groupStampMax l (key c)) c.stamp) := by
  unfold groupInfo
  rw [groupStampMax_append, if_pos rfl, filter_append_singleton, hgl, if_pos rfl,
    List.cons_append]

theorem mem_head_filter (l : List Chunk) (c c0 : Chunk) (g : List Chunk)
    (hgl : l.filter (fun x => key x = key c) = c0 :: g) :
    c0 ∈ l ∧ key c0 = key c := by
  have hmem : c0 ∈ l.filter (fun x => key x = key c) := by
    rw [hgl]
    exact List.mem_cons_self _ _
  refine ⟨List.mem_of_mem_filter hmem, ?_⟩
  have := List.of_mem_filter hmem
  simpa using this

theorem buildVersions_characterize (l : List Chunk) :
    (groupUniform l →
      ∃ m, buildVersions l = Except.ok m ∧ ∀ k, m k = groupInfo l k) ∧
    (¬ groupUniform l → ∃ msg, buildVersions l = Except.error msg) := by
  induction l using List.reverseRecOn with
  | nil =>
    constructor
    · intro _
      refine ⟨fun _ => none, rfl, fun k => rfl⟩
    · intro hbad
      exact absurd (by intro c1 h1; simp at h1) hbad
  | append_singleton l c ih =>
    have hfoldm : buildVersions (l ++ [c]) =
        (buildVersions l) >>= (fun m => step m c) := by
      unfold buildVersions
      rw [List.foldlM_append]
      simp
    constructor
    · intro hU
      have hUl : groupUniform l := groupUniform_append l c hU
      obtain ⟨m, hm, hminfo⟩ := ih.1 hUl
      rcases hgl : l.filter (fun x => key x = key c) with _ | ⟨c0, g⟩
      · -- c is the first chunk of its pair: a fresh entry is inserted
        have hmc : m (key c) = none := by
          rw [hminfo]
          unfold groupInfo
          rw [hgl]
        have hstep : step m c = Except.ok
            (fun k => if k = key c then some (c.epoch, c.stamp) else m k) := by
          unfold step
          rw [hmc]
        refine ⟨fun k => if k = key c then some (c.epoch, c.stamp) else m k, ?_, ?_⟩
        · rw [hfoldm, hm, ok_bind, hstep]
        · intro k
          by_cases hk : k = key c
          · subst hk
            show (if key c = key c then some (c.epoch, c.stamp) else m (key c))
              = groupInfo (l ++ [c]) (key c)
            rw [if_pos rfl, groupInfo_append_self_empty l c hgl]
          · show (if k = key c then some (c.epoch, c.stamp) else m k)
              = groupInfo (l ++ [c]) k
            rw [if_neg hk, hminfo,
              groupInfo_append_other l c k (fun hkk => hk hkk.symm)]
      · -- the pair already has a recorded version
        have hmc : m (key c) = some (c0.epoch, groupStampMax l (key c)) := by
          rw [hminfo]
          unfold groupInfo
          rw [hgl]
        obtain ⟨hc0l, hc0k⟩ := mem_head_filter l c c0 g hgl
        have heq : c0.epoch = c.epoch :=
          hU c0 (List.mem_append_left _ hc0l) c
            (List.mem_append_right _ (List.mem_cons_self _ _)) hc0k
        by_cases hs : groupStampMax l (key c) < c.stamp
        · have hstep : step m c = Except.ok
              (fun k => if k = key c then some (c0.epoch, c.stamp) else m k) := by
            simp only [step, hmc]
            rw [if_neg (by simp [heq]), if_pos hs]
          refine ⟨fun k => if k = key c then some (c0.epoch, c.stamp) else m k, ?_, ?_⟩
          · rw [hfoldm, hm, ok_bind, hstep]
          · intro k
            by_cases hk : k = key c
            · subst hk
              show (if key c = key c then some (c0.epoch, c.stamp) else m (key c))
                = groupInfo (l ++ [c]) (key c)
              rw [if_pos rfl, groupInfo_append_self_cons l c c0 g hgl]
              have hmax : max (groupStampMax l (key c)) c.stamp = c.stamp := by omega
              rw [hmax]
            · show (if k = key c then some (c0.epoch, c.stamp) else m k)
                = groupInfo (l ++ [c]) k
              rw [if_neg hk, hminfo,
                groupInfo_append_other l c k (fun hkk => hk hkk.symm)]
        · have hstep : step m c = Except.ok m := by
            simp only [step, hmc]
            rw [if_neg (by simp [heq]), if_neg hs]
          refine ⟨m, ?_, ?_⟩
          · rw [hfoldm, hm, ok_bind, hstep]
          · intro k
            by_cases hk : k = key c
            · subst hk
              rw [hmc, groupInfo_append_self_cons l c c0 g hgl]
              have hmax : max (groupStampMax l (key c)) c.stamp =
                  groupStampMax l (key c) := by omega
              rw [hmax]
            · rw [hminfo, groupInfo_append_other l c k (fun hkk => hk hkk.symm)]
    · intro hbad
      by_cases hUl : groupUniform l
      · obtain ⟨m, hm, hminfo⟩ := ih.1 hUl
        -- the violation must involve c and some earlier chunk of its pair
        have hviol : ∃ c1 ∈ l, key c1 = key c ∧ c1.epoch ≠ c.epoch := by
          by_contra hno
          push_neg at hno
          apply hbad
          intro c1 h1 c2 h2 hk
          rcases List.mem_append.mp h1 with h1l | h1c
          · rcases List.mem_append.mp h2 with h2l | h2c
            · exact hUl c1 h1l c2 h2l hk
            · have hc2 : c2 = c := by simpa using h2c
              rw [hc2]
              exact hno c1 h1l (by rw [← hc2]; exact hk)
          · have hc1 : c1 = c := by simpa using h1c
            rcases List.mem_append.mp h2 with h2l | h2c
            · rw [hc1]
              exact (hno c2 h2l (by rw [← hc1]; exact hk.symm)).symm
            · have hc2 : c2 = c := by simpa using h2c
              rw [hc1, hc2]
        obtain ⟨c1, hc1l, hc1k, hc1e⟩ := hviol
        rcases hgl : l.filter (fun x => key x = key c) with _ | ⟨c0, g⟩
        · exfalso
          have hmem : c1 ∈ l.filter (fun x => key x = key c) :=
            List.mem_filter.mpr ⟨hc1l, by simp [hc1k]⟩
          rw [hgl] at hmem
          simp at hmem
        · have hmc : m (key c) = some (c0.epoch, groupStampMax l (key c)) := by
            rw [hminfo]
            unfold groupInfo
            rw [hgl]
          obtain ⟨hc0l, hc0k⟩ := mem_head_filter l c c0 g hgl
          have hc0e : c0.epoch = c1.epoch :=
            hUl c0 hc0l c1 hc1l (by rw [hc0k, hc1k])
          have hcne : ¬ c0.epoch = c.epoch := by
            rw [hc0e]
            exact hc1e
          have hstep : ∃ msg, step m c = Except.error msg := by
            simp only [step, hmc]
            rw [if_pos (by simpa using hcne)]
            exact ⟨_, rfl⟩
          obtain ⟨msg, hmsg⟩ := hstep
          refine ⟨msg, ?_⟩
          rw [hfoldm, hm, ok_bind, hmsg]
      · obtain ⟨msg, hmsg⟩ := ih.2 hUl
        refine ⟨msg, ?_⟩
        rw [hfoldm, hmsg, error_bind]

/-- C2: constructing a `Config` from a topology document validates chunk
epochs per (namespace, shard) pair — if two chunks of the same pair carry
different epochs the construction fails with a `ShardConfigBroken` error —
and otherwise rewrites every chunk of a pair to carry the maximum stamp seen
in that pair's group, so that afterwards all chunks of a given (namespace,
shard) group expose one and the same version. -/
theorem config_epoch_validation (chunks : List Chunk) :
    ((∃ c1 ∈ chunks, ∃ c2 ∈ chunks, key c1 = key c2 ∧ c1.epoch ≠ c2.epoch) →
      ∃ msg, configRewrite chunks = Except.error msg) ∧
    (groupUniform chunks →
      configRewrite chunks = Except.ok (chunks.map (fun c =>
        ⟨c.ns, c.shard, c.epoch, groupStampMax chunks (key c)⟩)) ∧
      ∀ out, configRewrite chunks = Except.ok out →
        ∀ c1 ∈ out, ∀ c2 ∈ out, key c1 = key c2 →
          c1.epoch = c2.epoch ∧ c1.stamp = c2.stamp) := by
  constructor
  · rintro ⟨c1, h1, c2, h2, hk, he⟩
    have hbad : ¬ groupUniform chunks := by
      intro hU
      exact he (hU c1 h1 c2 h2 hk)
    obtain ⟨msg, hmsg⟩ := (buildVersions_characterize chunks).2 hbad
    refine ⟨msg, ?_⟩
    unfold configRewrite
    rw [hmsg]
    rfl
  · intro hU
    obtain ⟨m, hm, hminfo⟩ := (buildVersions_characterize chunks).1 hU
    have hout : configRewrite chunks = Except.ok (chunks.map (fun c =>
        ⟨c.ns, c.shard, c.epoch, groupStampMax chunks (key c)⟩)) := by
      unfold configRewrite
      rw [hm]
      simp only [Except.map]
      congr 1
      apply List.map_congr_left
      intro c hc
      rcases hgl : chunks.filter (fun x => key x = key c) with _ | ⟨c0, g⟩
      · have : c ∈ chunks.filter (fun x => key x = key c) :=
          List.mem_filter.mpr ⟨hc, by simp⟩
        rw [hgl] at this
        simp at this
      · have hmc : m (key c) = some (c0.epoch, groupStampMax chunks (key c)) := by
          rw [hminfo, groupInfo, hgl]
        have hc0 : c0 ∈ chunks ∧ key c0 = key c := by
          have : c0 ∈ chunks.filter (fun x => key x = key c) := by
            rw [hgl]; exact List.mem_cons_self _ _
          refine ⟨List.mem_of_mem_filter this, ?_⟩
          have := List.of_mem_filter this
          simpa using this
        have heq : c0.epoch = c.epoch := hU c0 hc0.1 c hc hc0.2
        rw [hmc, heq]
    refine ⟨hout, ?_⟩
    intro out hout2 c1 h1 c2 h2 hk
    rw [hout] at hout2
    have heq : out = chunks.map (fun c =>
        ⟨c.ns, c.shard, c.epoch, groupStampMax chunks (key c)⟩) :=
      (Except.ok.injEq _ _ ▸ hout2).symm ▸ rfl
    subst heq
    obtain ⟨d1, hd1, he1⟩ := List.mem_map.mp h1
    obtain ⟨d2, hd2, he2⟩ := List.mem_map.mp h2
    have hkey1 : key c1 = key d1 := by
      rw [← he1]
      rfl
    have hkey2 : key c2 = key d2 := by
      rw [← he2]
      rfl
    have hkd : key d1 = key d2 := by
      rw [← hkey1, ← hkey2, hk]
    constructor
    · rw [← he1, ← he2]
      exact hU d1 hd1 d2 hd2 hkd
    · rw [← he1, ← he2]
      simp only
      rw [← hkey1, ← hkey2, hk]

/-- Witness: a topology where namespace `db.c` has chunks on shard `A` with
stamps 1 and 5 (same epoch 9) and one chunk on shard `B` — construction
succeeds and both `A`-chunks now expose stamp 5 — and a broken topology where
the two `A`-chunks disagree on the epoch, which is rejected. -/
theorem config_epoch_validation_witness :
    configRewrite [⟨"db.c", "A", 9, 1⟩, ⟨"db.c", "A", 9, 5⟩, ⟨"db.c", "B", 9, 2⟩]
      = Except.ok [⟨"db.c", "A", 9, 5⟩, ⟨"db.c", "A", 9, 5⟩, ⟨"db.c", "B", 9, 2⟩] ∧
    ∃ msg, configRewrite [⟨"db.c", "A", 9, 1⟩, ⟨"db.c", "A", 8, 5⟩]
      = Except.error msg := by
  constructor
  · have h := (config_epoch_validation
      [⟨"db.c", "A", 9, 1⟩, ⟨"db.c", "A", 9, 5⟩, ⟨"db.c", "B", 9, 2⟩]).2
      (by
        intro c1 h1 c2 h2 hk
        fin_cases h1 <;> fin_cases h2 <;> simp_all [key])
    exact h.1.trans (by rfl)
  · exact (config_epoch_validation [⟨"db.c", "A", 9, 1⟩, ⟨"db.c", "A", 8, 5⟩]).1
      ⟨⟨"db.c", "A", 9, 1⟩, by simp, ⟨"db.c", "A", 8, 5⟩, by simp, rfl, by decide⟩

end ConfigEpochs

namespace Feed

namespace DS

theorem meas_fetch_ok (ds ds2 : DS) (d : Nat) (hend : ds.atEnd = false)
    (h : ds.fetchStep = Except.ok (d, ds2)) : meas ds2 < meas ds := by
  rcases ds with ⟨docs, t, i⟩ | ⟨m, c, i⟩
  · rcases docs with _ | ⟨d0, rest⟩
    · simp [atEnd, List.isEmpty] at hend
    · rcases t with _ | m
      · simp only [fetchStep] at h
        cases h
        simp [meas]
      · rcases rest with _ | ⟨d1, rest2⟩
        · simp [fetchStep] at h
        · simp only [fetchStep] at h
          cases h
          simp [meas]
  · rcases c with _ | _
    · simp only [fetchStep] at h
      cases h
      simp [meas]
    · simp [atEnd] at hend

theorem meas_fetch_err (ds : DS) (m : String) (h : ds.fetchStep = Except.error m) :
    1 < meas ds := by
  rcases ds with ⟨docs, t, i⟩ | ⟨mm, c, i⟩
  · rcases docs with _ | ⟨d0, rest⟩
    · simp [fetchStep] at h
    · rcases t with _ | mm
      · simp [fetchStep] at h
      · rcases rest with _ | ⟨d1, rest2⟩
        · simp [meas]
        · simp [fetchStep] at h
  · rcases c with _ | _
    · simp [fetchStep] at h
    · simp [fetchStep] at h

end DS

theorem fetchStep_fixedErr_false (m : String) (i : Nat) :
    (DS.fixedErr m false i).fetchStep = Except.ok (errDocSize m, DS.fixedErr m true i) := rfl

theorem fetchStep_fail_last (d : Nat) (m : String) (i : Nat) :
    (DS.stream [d] (Tail.fail m) i).fetchStep = Except.error m := rfl

theorem feedLoopF_fail_run (docs : List Nat) (m : String) (i : Nat) :
    ∀ (fuel rs : Nat) (cnt : Option Nat) (rc fl : Nat) (acc : List Nat),
    docs ≠ [] →
    docs.length ≤ fuel →
    rs + docs.sum < maxSize →
    (∀ k, cnt = some k → docs.length ≤ k) →
    (0 < rc ∨ 2 ≤ docs.length) →
    feedLoopF fuel (DS.stream docs (Tail.fail m) i) rs cnt rc fl acc =
      (acc ++ docs.dropLast, fl, DS.fixedErr m false i, rc + docs.length - 1) := by
  induction docs with
  | nil =>
    intro fuel rs cnt rc fl acc hne
    exact absurd rfl hne
  | cons d rest ih =>
    intro fuel rs cnt rc fl acc hne hfuel hsize hcnt hrc
    obtain ⟨f, rfl⟩ : ∃ f, fuel = f + 1 := by
      rcases fuel with _ | f
      · simp at hfuel
      · exact ⟨f, rfl⟩
    have hend : (DS.stream (d :: rest) (Tail.fail m) i).atEnd = false := rfl
    have hget : (DS.stream (d :: rest) (Tail.fail m) i).getSize = d := rfl
    have hsz : rs + d < maxSize := by
      simp only [List.sum_cons] at hsize
      omega
    have hcnt0 : ¬ cnt = some 0 := by
      intro hc
      have := hcnt 0 hc
      simp at this
    rcases rest with _ | ⟨d1, rest2⟩
    · -- the advance past the single cached document throws
      have hrc0 : rc ≠ 0 := by
        rcases hrc with h | h
        · omega
        · simp at h
      simp only [feedLoopF, hend, Bool.false_eq_true, if_false, hget]
      rw [if_neg (not_not_intro hsz), if_neg hcnt0]
      simp only [DS.fetchStep]
      rw [if_pos hrc0]
      simp [DS.dsidOf]
    · -- a successfully fetched document; recurse
      simp only [feedLoopF, hend, Bool.false_eq_true, if_false, hget]
      rw [if_neg (not_not_intro hsz), if_neg hcnt0]
      simp only [DS.fetchStep]
      rw [ih f (rs + d) (cnt.map (fun k => k - 1)) (rc + 1) fl (acc ++ [d])
        (by simp) (by simp at hfuel ⊢; omega)
        (by simp only [List.sum_cons] at hsize ⊢; omega)
        (by
          intro k hk
          rcases cnt with _ | k0
          · simp at hk
          · simp only [Option.map] at hk
            have := hcnt k0 rfl
            simp at hk this ⊢
            omega)
        (Or.inl (by omega))]
      rw [List.append_assoc, List.dropLast_cons₂, List.singleton_append]
      simp only [List.length_cons]
      have harith : rc + 1 + (rest2.length + 1) - 1 = rc + (rest2.length + 1 + 1) - 1 := by
        omega
      rw [harith]

theorem feed_eval_count0 (ds : DS) :
    feed ds 0 = (match feedLoopF (DS.meas ds) ds headerSize none 0 ds.dsflags [] with
      | (docs, flags, finalDS, _) =>
        if ¬ (false : Bool) = true ∧ finalDS.atEnd = false then
          ⟨docs, flags, finalDS.dsidOf, finalDS, false⟩
        else ⟨docs, flags, 0, finalDS, true⟩) := rfl

/-- C7, counterexample: a datasource that yields two documents and then
throws on the fetch of the second batch, driven by a request with count
`-2` (so the reply is limited to two documents and the cursor auto-closes):
the fetch exception arrives after one document is already in the batch, yet
the synthesised error source is closed and dropped, not installed — the
reply carries cursor id 0 — so the next GET_MORE on id 7 cannot return the
error document, contrary to the claim. -/
theorem feed_midstream_error_counterexample :
    feed (DS.stream [5, 5] (Tail.fail "boom") 7) (-2) =
      ⟨[5], 0, 0, DS.fixedErr "boom" false 7, true⟩ ∧
    (feed (DS.stream [5, 5] (Tail.fail "boom") 7) (-2)).closed = true ∧
    (feed (DS.stream [5, 5] (Tail.fail "boom") 7) (-2)).cursorId ≠ 7 := by
  refine ⟨by decide, by decide, by decide⟩

/-- C7 (amended): provided the request does not auto-close the cursor (count
0, the GET_MORE default, is taken here; counts of 1 or negative close it),
a fetch exception after at least one document has been emitted stops the
batch and leaves a Fixed error datasource carrying the same cursor id in the
reply — unclosed, so `Session::run` installs it in the cursor map — and a
subsequent feed of that stashed source returns the single error document
with the `QUERY_FAILURE` flag; while an exception before any document was
emitted turns the current reply itself into the error document with the
`QUERY_FAILURE` flag, closing the cursor. -/
theorem feed_midstream_error (docs : List Nat) (m : String) (i : Nat)
    (hlen : 2 ≤ docs.length)
    (hsize : headerSize + docs.sum < maxSize)
    (hesize : headerSize + errDocSize m < maxSize) :
    feed (DS.stream docs (Tail.fail m) i) 0 =
      ⟨docs.dropLast, 0, i, DS.fixedErr m false i, false⟩ ∧
    feed (DS.fixedErr m false i) 0 =
      ⟨[errDocSize m], qfFlag, 0, DS.fixedErr m true i, true⟩ ∧
    (∀ d : Nat, headerSize + d < maxSize →
      feed (DS.stream [d] (Tail.fail m) i) 0 =
        ⟨[errDocSize m], qfFlag, 0, DS.fixedErr m true i, true⟩) := by
  refine ⟨?_, ?_, ?_⟩
  · rw [feed_eval_count0]
    have hne : docs ≠ [] := by
      intro h
      rw [h] at hlen
      simp at hlen
    have hrun := feedLoopF_fail_run docs m i
      (DS.meas (DS.stream docs (Tail.fail m) i)) headerSize none 0
      ((DS.stream docs (Tail.fail m) i).dsflags) [] hne
      (by simp [DS.meas]) hsize (by intro k hk; simp at hk) (Or.inr hlen)
    rw [hrun]
    simp [DS.atEnd, DS.dsidOf, DS.dsflags]
  · rw [feed_eval_count0]
    have h1 : DS.meas (DS.fixedErr m false i) = 1 := rfl
    rw [h1]
    have hes2 : ¬ maxSize ≤ headerSize + errDocSize m := by omega
    simp [feedLoopF, DS.atEnd, DS.getSize, DS.dsflags, DS.dsidOf,
      fetchStep_fixedErr_false, hes2, qfFlag]
  · intro d hd
    rw [feed_eval_count0]
    have h3 : DS.meas (DS.stream [d] (Tail.fail m) i) = 3 := rfl
    rw [h3]
    have hes2 : ¬ maxSize ≤ headerSize + errDocSize m := by omega
    have hd2 : ¬ maxSize ≤ headerSize + d := by omega
    simp [feedLoopF, DS.atEnd, DS.getSize, DS.dsflags, DS.dsidOf,
      fetchStep_fixedErr_false, fetchStep_fail_last, hes2, hd2, qfFlag]

/-- Witness: a source yielding documents of sizes 5 and 6 and then failing
with "boom", fed with count 0 under cursor id 7: the reply carries the first
document and cursor id 7, the error source is stashed unconsumed, and the
next feed on it returns the error document with `QUERY_FAILURE`. -/
theorem feed_midstream_error_witness :
    feed (DS.stream [5, 6] (Tail.fail "boom") 7) 0 =
      ⟨[5], 0, 7, DS.fixedErr "boom" false 7, false⟩ ∧
    feed (DS.fixedErr "boom" false 7) 0 =
      ⟨[errDocSize "boom"], qfFlag, 0, DS.fixedErr "boom" true 7, true⟩ := by
  have h := feed_midstream_error [5, 6] "boom" 7 (by decide) (by decide) (by decide)
  refine ⟨h.1.trans (by decide), h.2.1⟩

end Feed

namespace Talk

/-- C9: in the hedged read path, (1) a T1 success within
`min(retransmit, timeout)` supplies the returned batch and no retransmission
is issued; (2) with a finite `retransmit`, T1 not yet successful at the
phase-1 deadline and a second backend available, T2 is spawned — and the
backend it runs on satisfies the exclusion predicate passed to the selection
(so it differs from T1's backend, witnessed by the final conjunct about
`selectLocal`); (3) whichever of T1/T2 then succeeds first within `timeout`
supplies the batch and a losing task still in flight is cancelled: if T1
succeeds at `v1` and T2 no earlier, the batch is T1's (T2 cancelled exactly
when strictly later); if T2 succeeds strictly earlier, or T1 hangs while T2
succeeds in time, the batch is T2's and T1 is cancelled. -/
theorem talk_hedged_read (inp : TalkIn) :
    (∀ v, inp.t1 = TaskRun.succeedsAt v → v ≤ phase1Deadline inp →
      talkModel inp = ⟨TalkRes.t1Batch, false, false, false⟩) ∧
    ((inp.retransmit.isSome ∧ inp.hasSecond) →
      (∀ v, inp.t1 = TaskRun.succeedsAt v → phase1Deadline inp < v →
        (talkModel inp).t2spawned = true) ∧
      (inp.t1 = TaskRun.hangs → (talkModel inp).t2spawned = true)) ∧
    (∀ v1 d2, inp.t1 = TaskRun.succeedsAt v1 → inp.t2 = TaskRun.succeedsAt d2 →
      inp.retransmit.isSome ∧ inp.hasSecond →
      phase1Deadline inp < v1 → v1 ≤ inp.timeout →
      v1 ≤ phase1Deadline inp + d2 →
      talkModel inp =
        ⟨TalkRes.t1Batch, true, false, decide (v1 < phase1Deadline inp + d2)⟩) ∧
    (∀ v1 d2, inp.t1 = TaskRun.succeedsAt v1 → inp.t2 = TaskRun.succeedsAt d2 →
      inp.retransmit.isSome ∧ inp.hasSecond →
      phase1Deadline inp < v1 → phase1Deadline inp + d2 < v1 →
      phase1Deadline inp + d2 ≤ inp.timeout →
      talkModel inp = ⟨TalkRes.t2Batch, true, true, false⟩) ∧
    (∀ d2, inp.t1 = TaskRun.hangs → inp.t2 = TaskRun.succeedsAt d2 →
      inp.retransmit.isSome ∧ inp.hasSecond →
      phase1Deadline inp + d2 ≤ inp.timeout →
      talkModel inp = ⟨TalkRes.t2Batch, true, true, false⟩) ∧
    (∀ (pred : SelectLocal.Backend → Bool) (backends : List SelectLocal.Backend)
        (lt r : Nat) (b : SelectLocal.Backend),
      SelectLocal.selectLocal pred backends lt r = some b → pred b = true) := by
  refine ⟨?_, ?_, ?_, ?_, ?_, ?_⟩
  · intro v ht1 hv
    simp only [talkModel, ht1]
    rw [if_pos hv]
  · intro hsp
    constructor
    · intro v ht1 hv
      simp only [talkModel, ht1]
      rw [if_neg (by omega)]
      simp only [phase2]
      rw [if_pos hsp]
      rcases habs : absTime (phase1Deadline inp) inp.t2 with _ | v2
      · by_cases h : v ≤ inp.timeout <;> simp [h]
      · by_cases h : v ≤ inp.timeout ∧ v ≤ v2
        · simp [h]
        · by_cases h2 : v2 ≤ inp.timeout <;> simp [h, h2]
    · intro ht1
      simp only [talkModel, ht1, phase2]
      rw [if_pos hsp]
      rcases habs : absTime (phase1Deadline inp) inp.t2 with _ | v2
      · simp
      · by_cases h2 : v2 ≤ inp.timeout <;> simp [h2]
  · intro v1 d2 ht1 ht2 hsp hlate hto hord
    simp only [talkModel, ht1]
    rw [if_neg (by omega)]
    simp only [phase2]
    rw [if_pos hsp]
    simp only [ht2, absTime]
    rw [if_pos ⟨hto, hord⟩]
  · intro v1 d2 ht1 ht2 hsp hlate hord hto
    simp only [talkModel, ht1]
    rw [if_neg (by omega)]
    simp only [phase2]
    rw [if_pos hsp]
    simp only [ht2, absTime]
    rw [if_neg (by omega), if_pos hto]
    have : decide (phase1Deadline inp + d2 < v1) = true := by
      simp
      omega
    rw [this]
  · intro d2 ht1 ht2 hsp hto
    simp only [talkModel, ht1, phase2]
    rw [if_pos hsp]
    simp only [ht2, absTime]
    rw [if_pos hto]
  · intro pred backends lt r b hsel
    unfold SelectLocal.selectLocal at hsel
    rcases hc : (SelectLocal.calcByRoundtrip backends).filter pred with _ | ⟨c, rest⟩
    · rw [hc] at hsel
      simp at hsel
    · rw [hc] at hsel
      simp only [Option.some.injEq] at hsel
      have hmem : b ∈ c :: rest := by
        rw [← hsel]
        rcases hget : (c :: rest).get?
            (r * SelectLocal.selectRange (c :: rest) lt / SelectLocal.randMax1) with _ | x
        · rw [List.getD, hget]
          exact List.mem_cons_self _ _
        · rw [List.getD, hget]
          exact List.get?_mem hget
      have hball : ∀ x ∈ c :: rest, pred x = true := by
        intro x hx
        rw [← hc] at hx
        exact List.of_mem_filter hx
      exact hball b hmem

/-- Witness: spec scenario S3 — `retransmit = 10`, `timeout = 100`, T1
stalls for 50, the second backend replies in 2: T2 is spawned at 10, its
batch (arriving at 12) is returned, and T1 is cancelled. Also the phase-1
fast path: T1 succeeding at 3 returns at once with no T2. -/
theorem talk_hedged_read_witness :
    talkModel ⟨some 10, 100, TaskRun.succeedsAt 50, true, TaskRun.succeedsAt 2⟩
      = ⟨TalkRes.t2Batch, true, true, false⟩ ∧
    talkModel ⟨some 10, 100, TaskRun.succeedsAt 3, true, TaskRun.succeedsAt 2⟩
      = ⟨TalkRes.t1Batch, false, false, false⟩ := by
  constructor
  · exact (talk_hedged_read
      ⟨some 10, 100, TaskRun.succeedsAt 50, true, TaskRun.succeedsAt 2⟩).2.2.2.1
      50 2 rfl rfl (by decide) (by decide) (by decide) (by decide)
  · exact (talk_hedged_read
      ⟨some 10, 100, TaskRun.succeedsAt 3, true, TaskRun.succeedsAt 2⟩).1
      3 rfl (by decide)

end Talk

namespace Router

theorem clistLtB_conn : ∀ a b : List Char, clistLtB a b = false → clistLtB b a = false → a = b
  | [], [], _, _ => rfl
  | [], _ :: _, h1, _ => by simp [clistLtB] at h1
  | _ :: _, [], _, h2 => by simp [clistLtB] at h2
  | a :: as, b :: bs, h1, h2 => by
    simp only [clistLtB] at h1 h2
    by_cases hab : a < b
    · simp [hab] at h1
    · by_cases hba : b < a
      · simp [hba] at h2
      · have hab2 : a = b := le_antisymm (le_of_not_lt hba) (le_of_not_lt hab)
        rw [if_neg hab, if_neg hba] at h1
        rw [if_neg hba, if_neg hab] at h2
        exact hab2 ▸ congrArg (a :: ·) (clistLtB_conn as bs h1 h2)

theorem strLtB_conn (a b : String) (h1 : strLtB a b = false) (h2 : strLtB b a = false) :
    a = b := by
  cases a with
  | mk da =>
    cases b with
    | mk db =>
      simp only [strLtB] at h1 h2
      exact congrArg String.mk (clistLtB_conn da db h1 h2)

theorem ckLtB_false_fst {V : Type} [LinearOrder V] (a b : String × Option (List V))
    (h : ckLtB a b = false) : strLtB a.1 b.1 = false := by
  by_cases h1 : strLtB a.1 b.1 = true
  · simp [ckLtB, h1] at h
  · simpa using h1

theorem ckLtB_some_none {V : Type} [LinearOrder V] (nsStr : String) (k : List V)
    (h : strLtB nsStr nsStr = false) :
    ckLtB (nsStr, some k) (nsStr, none) = false := by
  simp [ckLtB, oltB, h]

theorem strLtB_irrefl (a : String) : strLtB a a = false := by
  cases a with
  | mk da =>
    simp only [strLtB]
    induction da with
    | nil => rfl
    | cons c cs ih => simp [clistLtB, lt_irrefl, ih]

/-- A probe key `(ns, some k)` that is strictly above some chunk key cannot sit
at or below the minimal key `(ns, none)` of its namespace group. -/
theorem ckLtB_cover_contra {V : Type} [LinearOrder V] (nsStr : String) (k : List V)
    (b : String × Option (List V))
    (ht : ckLtB (nsStr, some k) b = true)
    (hf : ckLtB (nsStr, none) b = false) : False := by
  obtain ⟨bn, bl⟩ := b
  simp only [ckLtB] at ht hf
  by_cases h1 : strLtB nsStr bn = true
  · simp [h1] at hf
  · rw [eq_false_of_ne_true h1, if_neg Bool.false_ne_true] at ht hf
    by_cases h2 : strLtB bn nsStr = true
    · simp [h2] at ht
    · rw [eq_false_of_ne_true h2, if_neg Bool.false_ne_true] at ht hf
      cases bl with
      | none => simp [oltB] at ht
      | some bv => simp [oltB] at hf

theorem dropWhile_cons_head_false {α : Type} (p : α → Bool) (l : List α) (x : α) (xs : List α)
    (h : l.dropWhile p = x :: xs) : p x = false := by
  induction l with
  | nil => simp [List.dropWhile] at h
  | cons a as ih =>
    rw [List.dropWhile_cons] at h
    by_cases hp : p a
    · rw [if_pos hp] at h; exact ih h
    · rw [if_neg hp] at h
      cases h
      simpa using hp

/-- On a sorted chunk list that has a chunk of namespace `nsStr` with an empty
lower bound (the group's minimal key), a successful `doFind` lands on a chunk of
that same namespace: the asserts of the source cannot step outside the group. -/
theorem doFind_mem_ns {V : Type} [LinearOrder V] (chunks : List (Chunk V)) (nsStr : String)
    (k : List V) (s : String) (e st : Nat)
    (hsort : SortedChunks chunks)
    (c0 : Chunk V) (hc0 : c0 ∈ chunks) (hns0 : c0.ns = nsStr) (hlow0 : c0.lower = none)
    (h : doFind chunks nsStr k = some (s, e, st)) :
    ∃ c ∈ chunks, c.ns = nsStr ∧ c.shard = s := by
  cases hT : (chunks.takeWhile (ubKeep nsStr k)).getLast? with
  | none => simp [doFind, hT] at h
  | some c =>
    simp only [doFind, hT] at h
    by_cases hcont : containsB c k = true
    · rw [if_pos hcont] at h
      obtain ⟨hs, he, hst⟩ : c.shard = s ∧ c.epoch = e ∧ c.stamp = st := by
        simpa using h
      have hTne : chunks.takeWhile (ubKeep nsStr k) ≠ [] := by
        intro hnil; rw [hnil] at hT; simp at hT
      have hceq : (chunks.takeWhile (ubKeep nsStr k)).getLast hTne = c := by
        rw [List.getLast?_eq_getLast_of_ne_nil hTne] at hT
        exact Option.some.inj hT
      have hmemT : c ∈ chunks.takeWhile (ubKeep nsStr k) := hceq ▸ List.getLast_mem hTne
      have hcmem : c ∈ chunks := (List.takeWhile_sublist _).subset hmemT
      have hck : ckLtB (nsStr, some k) (sortKey c) = false := by
        have := List.mem_takeWhile_imp hmemT
        simpa [ubKeep] using this
      have hpred0 : ubKeep nsStr k c0 = true := by
        simp only [ubKeep, sortKey, hns0, hlow0]
        rw [ckLtB_some_none nsStr k (strLtB_irrefl nsStr)]
        rfl
      have h1 : strLtB nsStr c.ns = false := ckLtB_false_fst _ _ hck
      have hsplit := List.takeWhile_append_dropWhile (p := ubKeep nsStr k) (l := chunks)
      have hc0' : c0 ∈ chunks.takeWhile (ubKeep nsStr k) ∨
          c0 ∈ chunks.dropWhile (ubKeep nsStr k) := by
        rw [← List.mem_append, hsplit]; exact hc0
      rcases hc0' with hin | hin
      · -- the cover chunk is in the kept prefix: squeeze the ns of c
        have hTsplit : (chunks.takeWhile (ubKeep nsStr k)).dropLast ++ [c] =
            chunks.takeWhile (ubKeep nsStr k) := by
          conv_rhs => rw [← List.dropLast_append_getLast hTne]
          rw [hceq]
        have hin2 : c0 ∈ (chunks.takeWhile (ubKeep nsStr k)).dropLast ++ [c] := by
          rw [hTsplit]; exact hin
        rcases List.mem_append.mp hin2 with hdl | hlast
        · have hsortP : chunks.Pairwise
              (fun a b => ckLtB (sortKey b) (sortKey a) = false) := hsort
          have hpT : (chunks.takeWhile (ubKeep nsStr k)).Pairwise
              (fun a b => ckLtB (sortKey b) (sortKey a) = false) :=
            hsortP.sublist (List.takeWhile_sublist _)
          have hpT2 : ((chunks.takeWhile (ubKeep nsStr k)).dropLast ++ [c]).Pairwise
              (fun a b => ckLtB (sortKey b) (sortKey a) = false) := by
            rw [hTsplit]; exact hpT
          have hrel : ckLtB (sortKey c) (sortKey c0) = false :=
            (List.pairwise_append.mp hpT2).2.2 c0 hdl c (by simp)
          have h2 : strLtB c.ns nsStr = false := by
            have := ckLtB_false_fst _ _ hrel
            simpa [sortKey, hns0] using this
          exact ⟨c, hcmem, (strLtB_conn nsStr c.ns h1 h2).symm, hs⟩
        · have : c0 = c := by simpa using hlast
          exact ⟨c, hcmem, this ▸ hns0, hs⟩
      · -- the cover chunk after the first violation contradicts sortedness
        exfalso
        cases hD : chunks.dropWhile (ubKeep nsStr k) with
        | nil => rw [hD] at hin; cases hin
        | cons x xs =>
          have hx : ubKeep nsStr k x = false := dropWhile_cons_head_false _ _ _ _ hD
          have hxt : ckLtB (nsStr, some k) (sortKey x) = true := by
            simpa [ubKeep] using hx
          rw [hD] at hin
          rcases List.mem_cons.mp hin with rfl | hin2
          · rw [hpred0] at hx; cases hx
          · have hcat : chunks.takeWhile (ubKeep nsStr k) ++ x :: xs = chunks := by
              rw [← hD]; exact hsplit
            have hsortP : chunks.Pairwise
                (fun a b => ckLtB (sortKey b) (sortKey a) = false) := hsort
            rw [← hcat] at hsortP
            have hrel : ckLtB (sortKey c0) (sortKey x) = false :=
              (List.pairwise_cons.mp (List.pairwise_append.mp hsortP).2.1).1 c0 hin2
            rw [sortKey, hns0, hlow0] at hrel
            exact ckLtB_cover_contra nsStr k (sortKey x) hxt hrel
    · rw [if_neg hcont] at h; cases h

theorem fst_mem_vsInsert (acc : List (String × Nat × Nat)) (x : String × Nat × Nat) :
    x.1 ∈ (vsInsert acc x).map Prod.fst := by
  unfold vsInsert
  by_cases h : acc.any (fun y => y.1 = x.1)
  · rw [if_pos h]
    obtain ⟨y, hy, hyx⟩ := List.any_eq_true.mp h
    exact List.mem_map.mpr ⟨y, hy, of_decide_eq_true hyx⟩
  · rw [if_neg h, List.map_append]
    exact List.mem_append_right _ (by simp)

theorem fst_mem_foldl_vsInsert_acc (l : List (String × Nat × Nat))
    (acc : List (String × Nat × Nat)) (s : String)
    (hs : s ∈ acc.map Prod.fst) : s ∈ (l.foldl vsInsert acc).map Prod.fst := by
  induction l generalizing acc with
  | nil => exact hs
  | cons a as ih =>
    refine ih _ ?_
    unfold vsInsert
    by_cases h : acc.any (fun y => y.1 = a.1)
    · rw [if_pos h]; exact hs
    · rw [if_neg h, List.map_append]; exact List.mem_append_left _ hs

theorem fst_mem_foldl_vsInsert_self (l : List (String × Nat × Nat))
    (acc : List (String × Nat × Nat)) (x : String × Nat × Nat) (hx : x ∈ l) :
    x.1 ∈ (l.foldl vsInsert acc).map Prod.fst := by
  induction l generalizing acc with
  | nil => cases hx
  | cons a as ih =>
    rcases List.mem_cons.mp hx with rfl | hx2
    · exact fst_mem_foldl_vsInsert_acc as (vsInsert acc x) x.1 (fst_mem_vsInsert acc x)
    · exact ih (vsInsert acc a) hx2

theorem mem_foldl_vsInsert (l : List (String × Nat × Nat))
    (acc : List (String × Nat × Nat)) (y : String × Nat × Nat)
    (hy : y ∈ l.foldl vsInsert acc) : y ∈ acc ∨ y ∈ l := by
  induction l generalizing acc with
  | nil => exact Or.inl hy
  | cons a as ih =>
    rcases ih (vsInsert acc a) hy with h | h
    · unfold vsInsert at h
      by_cases hc : acc.any (fun z => z.1 = a.1)
      · rw [if_pos hc] at h; exact Or.inl h
      · rw [if_neg hc] at h
        rcases List.mem_append.mp h with h2 | h2
        · exact Or.inl h2
        · exact Or.inr (by simpa using List.mem_cons.mpr (Or.inl (by simpa using h2)))
    · exact Or.inr (List.mem_cons_of_mem _ h)

theorem mem_optMapList {α β : Type} (f : α → Option β) (l : List α) (out : List β)
    (h : optMapList f l = some out) (y : β) (hy : y ∈ out) : ∃ a ∈ l, f a = some y := by
  induction l generalizing out with
  | nil =>
    obtain rfl : out = [] := by simpa [optMapList] using h.symm
    cases hy
  | cons a as ih =>
    simp only [optMapList] at h
    cases hfa : f a with
    | none => rw [hfa] at h; cases h
    | some b =>
      rw [hfa] at h
      cases hrest : optMapList f as with
      | none => rw [hrest] at h; cases h
      | some bs =>
        rw [hrest] at h
        obtain rfl : b :: bs = out := by simpa using h
        rcases List.mem_cons.mp hy with rfl | hy2
        · exact ⟨a, List.mem_cons_self _ _, hfa⟩
        · obtain ⟨a2, ha2, hfa2⟩ := ih bs hrest hy2
          exact ⟨a2, List.mem_cons_of_mem _ ha2, hfa2⟩

/-- A chunk of the namespace contributes its shard to `Config::shards` when the
collection is sharded and the namespace is not in the `config` database. -/
theorem shard_mem_shardsModel {V : Type} [LinearOrder V] (t : Topo V) (n : NS)
    (hdb : n.db ≠ "config") (coll : Coll) (hcoll : collection t n.ns = some coll)
    (c : Chunk V) (hc : c ∈ t.chunks) (hns : c.ns = n.ns) :
    c.shard ∈ shardIds (shardsModel t n) := by
  unfold shardsModel shardIds
  rw [if_neg hdb, hcoll]
  have hcf : c ∈ t.chunks.filter (fun ch => ch.ns = n.ns) :=
    List.mem_filter.mpr ⟨hc, by simp [hns]⟩
  have : (c.shard, c.epoch, c.stamp) ∈
      (t.chunks.filter (fun ch => ch.ns = n.ns)).map (fun ch => (ch.shard, ch.epoch, ch.stamp)) :=
    List.mem_map.mpr ⟨c, hcf, rfl⟩
  exact fst_mem_foldl_vsInsert_self _ [] _ this

/-- With a nonempty sharding key, `Config::find` on the empty criteria document
takes the `!el.exists()` branch on the first key field and returns
`shards(ns)`. -/
theorem findModel_nil {V : Type} [LinearOrder V] (hashFn : V → V) (t : Topo V) (n : NS)
    (hkey : ∀ coll, collection t n.ns = some coll → coll.keyFields ≠ []) :
    findModel hashFn t n [] = some (shardsModel t n) := by
  unfold findModel
  split
  · rfl
  · rename_i coll hcoll
    cases hkf : coll.keyFields with
    | nil => exact absurd hkf (hkey coll hcoll)
    | cons f rest =>
      obtain ⟨fn, fv⟩ := f
      simp [procFields, lookupC]

/-- C3 (amended): the router subset property holds away from the `config`
database. For a topology whose chunk list is sorted by `(ns, lowerBound)` (as
the `SortedVector` keeps it), whose sharded collections start at an empty lower
bound and have a nonempty sharding key, and a namespace whose database is not
`config`: `Config::find(N, {})` equals `Config::shards(N)`, and every shard
returned by `Config::find(N, C)` for any criteria C is among the shards of
`Config::shards(N)`. (Without the `ns.db != "config"` restriction the property
fails: `Config::shards` special-cases the config database but the chunk-routing
path of `Config::find` does not, see `router_subset_counterexample`.) -/
theorem config_find_subset {V : Type} [LinearOrder V] (hashFn : V → V) (t : Topo V) (n : NS)
    (cr : List (String × Crit V)) (res : List (String × Nat × Nat))
    (hsort : SortedChunks t.chunks)
    (hdb : n.db ≠ "config")
    (hcov : ∀ coll, collection t n.ns = some coll →
      ∃ c0 ∈ t.chunks, c0.ns = n.ns ∧ c0.lower = none)
    (hkey : ∀ coll, collection t n.ns = some coll → coll.keyFields ≠ [])
    (hres : findModel hashFn t n cr = some res) :
    findModel hashFn t n [] = some (shardsModel t n) ∧
    ∀ s ∈ shardIds res, s ∈ shardIds (shardsModel t n) := by
  refine ⟨findModel_nil hashFn t n hkey, ?_⟩
  intro s hs
  unfold findModel at hres
  split at hres
  · obtain rfl : shardsModel t n = res := by simpa using hres
    exact hs
  · rename_i coll hcoll
    obtain ⟨c0, hc0, hns0, hlow0⟩ := hcov coll hcoll
    split at hres
    · obtain rfl : shardsModel t n = res := by simpa using hres
      exact hs
    · rename_i st hproc
      split at hres
      · rename_i hvec
        cases hdf : doFind t.chunks n.ns (buildKey hashFn (hashedField coll) st.head) with
        | none => rw [hdf] at hres; simp at hres
        | some vs =>
          rw [hdf] at hres
          obtain rfl : [vs] = res := by simpa using hres
          obtain rfl : s = vs.1 := by simpa [shardIds] using hs
          obtain ⟨c, hcmem, hcns, hcsh⟩ :=
            doFind_mem_ns t.chunks n.ns _ vs.1 vs.2.1 vs.2.2 hsort c0 hc0 hns0 hlow0 hdf
          exact hcsh ▸ shard_mem_shardsModel t n hdb coll hcoll c hcmem hcns
      · rename_i vn hvec
        cases hlist : optMapList (fun v =>
            doFind t.chunks n.ns
              (buildKey hashFn (hashedField coll) (st.head ++ [(vn, v)] ++ st.tail)))
            st.vecVals with
        | none => rw [hlist] at hres; simp at hres
        | some outs =>
          rw [hlist] at hres
          obtain rfl : outs.foldl vsInsert [] = res := by simpa using hres
          obtain ⟨y, hy, rfl⟩ := List.mem_map.mp hs
          rcases mem_foldl_vsInsert outs [] y hy with hnil | hmem
          · cases hnil
          · obtain ⟨v, hv, hdf⟩ := mem_optMapList _ _ _ hlist y hmem
            obtain ⟨c, hcmem, hcns, hcsh⟩ :=
              doFind_mem_ns t.chunks n.ns _ y.1 y.2.1 y.2.2 hsort c0 hc0 hns0 hlow0 hdf
            exact hcsh ▸ shard_mem_shardsModel t n hdb coll hcoll c hcmem hcns

/-- C3, counterexample to the claim as stated: on a well-formed (sorted,
covered-from-below) topology in which the collection `config.c` is sharded onto
shard `"A"`, `Config::find` routes the criteria `{k: 3}` to `"A"` through the
chunk map, but `Config::find(N, {})` — which answers through `Config::shards` —
returns only the config shard, because `shards` special-cases `ns.db() ==
"config"` before consulting the chunks while the `doFind` path of `find` does
not. So `find(N, C) ⊆ find(N, {})` fails. -/
theorem router_subset_counterexample :
    SortedChunks ceTopo.chunks ∧
    (∃ c ∈ ceTopo.chunks, c.ns = ceNS.ns ∧ c.lower = none) ∧
    findModel (fun v : Int => v) ceTopo ceNS [("k", Crit.val 3)] = some [("A", 1, 1)] ∧
    findModel (fun v : Int => v) ceTopo ceNS [] = some [("config", 0, 0)] ∧
    shardsModel ceTopo ceNS = [("config", 0, 0)] ∧
    "A" ∈ shardIds [("A", 1, 1)] ∧ "A" ∉ shardIds [("config", 0, 0)] := by decide

/-- Witness: the amended subset theorem applied to the two-shard topology
`wTopo` with criteria `{k: 20}`, which routes to shard `"B"` — a member of the
namespace's full shard set. -/
theorem config_find_subset_witness :
    findModel (fun v : Int => v) wTopo wNS [] = some (shardsModel wTopo wNS) ∧
    ∀ s ∈ shardIds [("B", 1, 2)], s ∈ shardIds (shardsModel wTopo wNS) := by
  have hres : findModel (fun v : Int => v) wTopo wNS [("k", Crit.val 20)] =
      some [("B", 1, 2)] := by decide
  have hcol : collection wTopo wNS.ns = some ⟨"db.c", [("k", SKVal.plain)]⟩ := by decide
  refine config_find_subset (fun v => v) wTopo wNS [("k", Crit.val 20)] [("B", 1, 2)]
    (by decide) (by decide) ?_ ?_ hres
  · intro coll _
    exact ⟨⟨"db.c", none, some [10], "A", 1, 1⟩, by decide, by decide, rfl⟩
  · intro coll h
    rw [hcol] at h
    cases h
    decide

end Router

end Mongoz

